import Mathlib

/-!
# Fixed-arena allocator (`src/alocator/main.cpp`)

A shallow embedding of the segregated-fit allocator and a verification of its
specification.

Memory model.  Addresses are byte offsets from `heap` (an `Int`, so that the
pointer step `ptr - sizeof(struct block)` of `my_free` is exact); the null
pointer is `none`.  A `struct block` header living at offset `o` is read and
written through its two fields `next` and `size`; headers at different offsets
are different objects.  This is what the source does as long as every header accessed is
the header of a carved block, which holds under every use in which the pointers released
are payload addresses of blocks; a release of a pointer into the middle of a block is
outside the embedding, and no theorem is stated about it.  `sizeof(struct block)` is implementation defined and is
the parameter `H` of every operation (16 on the usual 64-bit ABI).

Pointer arithmetic is exact: the arena is away from both ends of the address space, so
`ptr + sizeof(struct block) + SMALL_SIZE` and `ptr - sizeof(struct block)` do not wrap.
The size field is a `uint8_t`: stores truncate to eight bits, and the comparison with a
`size_t` request is made on the widened value.

Loops are run with fuel: `none` means the fuel ran out before the loop exited.  A call
"returns" when some fuel gives `some` result; more fuel then gives the same result.
-/

namespace Alocator

/-- Line 4: `static const size_t HEAP_SIZE = 4096;` -/
def HEAP_SIZE : Nat := 4096

/-- Line 5: `static const size_t SMALL_SIZE = 15;` -/
def SMALL_SIZE : Nat := 15

/-- Line 6: `static const size_t LARGE_SIZE = 180;` -/
def LARGE_SIZE : Nat := 180

/-- A `struct block*` or `void*` into the arena: `none` is NULL, `some o` is `heap + o`. -/
abbrev Ptr : Type := Option Int

/-- Store `v` at key `a` of a field map. -/
def upd {β : Type} (f : Int → β) (a : Int) (v : β) : Int → β :=
  fun x => if x = a then v else f x

/-- The globals of the translation unit (lines 14-16).  `next o` and `size o` are the
fields of the header at `heap + o`; `heap` is the byte view of the arena that the
callers see through payload references (the allocator itself never accesses it). -/
structure State where
  next : Int → Ptr
  size : Int → Nat
  heap : Int → Nat
  free_list : Ptr
  initialized : Bool

/-- Static storage at program start: everything zero, `free_list = NULL`,
`initialized = 0`. -/
def fresh : State :=
  { next := fun _ => none, size := fun _ => 0, heap := fun _ => 0,
    free_list := none, initialized := false }

/-- The two statements `b->next = free_list; free_list = b;` (lines 33-34 and 68-69). -/
def push_head (st : State) (b : Int) : State :=
  let st1 := { st with next := upd st.next b st.free_list }
  { st1 with free_list := some b }

/-- The `while` loop of `init_heap` (lines 22-35); `ptr` is the cursor as an offset
from `heap`.  The stores `(uint8_t)LARGE_SIZE` and `(uint8_t)SMALL_SIZE` truncate
to eight bits. -/
def init_heap_loop (H : Nat) : Nat → Nat → State → Option State
  | 0, _, _ => none
  | fuel + 1, ptr, st =>
    if ptr + H + SMALL_SIZE ≤ HEAP_SIZE then
      let b : Int := (ptr : Int)
      if ptr + H + LARGE_SIZE ≤ HEAP_SIZE then
        let st1 := { st with size := upd st.size b (LARGE_SIZE % 256) }
        init_heap_loop H fuel (ptr + H + LARGE_SIZE) (push_head st1 b)
      else
        let st1 := { st with size := upd st.size b (SMALL_SIZE % 256) }
        init_heap_loop H fuel (ptr + H + SMALL_SIZE) (push_head st1 b)
    else some st

/-- The function `init_heap` (lines 19-36): the cursor starts at `heap`. -/
def init_heap (H fuel : Nat) (st : State) : Option State :=
  init_heap_loop H fuel 0 st

/-- The blocks written by the loop of `init_heap`, in the order in which the loop
writes them, as pairs (offset of the header, value stored in `size`).  Same control
flow as `init_heap_loop`, recording instead of storing. -/
def carve (H : Nat) : Nat → Nat → List (Nat × Nat)
  | 0, _ => []
  | fuel + 1, ptr =>
    if ptr + H + SMALL_SIZE ≤ HEAP_SIZE then
      if ptr + H + LARGE_SIZE ≤ HEAP_SIZE then
        (ptr, LARGE_SIZE % 256) :: carve H fuel (ptr + H + LARGE_SIZE)
      else
        (ptr, SMALL_SIZE % 256) :: carve H fuel (ptr + H + SMALL_SIZE)
    else []

/-- What `struct block** prev` points at in `my_malloc`: the global `free_list`
(line 45) or the `next` field of a header (line 53). -/
inductive Link where
  | head : Link
  | field (b : Int) : Link

/-- The store `*prev = v` (line 50). -/
def store_link (st : State) (prev : Link) (v : Ptr) : State :=
  match prev with
  | Link.head => { st with free_list := v }
  | Link.field b => { st with next := upd st.next b v }

/-- The `while (cur)` loop of `my_malloc` with the final `return NULL` (lines 48-57).
The comparison `cur->size == size` is made at the width of `size_t`: the stored
byte is widened, the request is not truncated. -/
def scan (H : Nat) : Nat → State → Link → Ptr → Nat → Option (Ptr × State)
  | 0, _, _, _, _ => none
  | fuel + 1, st, prev, cur, size =>
    match cur with
    | none => some (none, st)
    | some c =>
      if st.size c = size then
        some (some (c + H), store_link st prev (st.next c))
      else
        scan H fuel st (Link.field c) (st.next c) size

/-- The lazy initialisation at the top of `my_malloc` (lines 40-43). -/
def ensure_init (H fuel : Nat) (st : State) : Option State :=
  if st.initialized then some st
  else
    match init_heap H fuel st with
    | none => none
    | some st1 => some { st1 with initialized := true }

/-- The function `my_malloc` (lines 39-58): the returned pointer and the new globals. -/
def my_malloc (H fuel : Nat) (st : State) (size : Nat) : Option (Ptr × State) :=
  match ensure_init H fuel st with
  | none => none
  | some st1 => scan H fuel st1 Link.head st1.free_list size

/-- The function `my_free` (lines 61-70).  The store `b->next = free_list` is a store to
the `next` field of the header at `p - H`; this is what the source does when `p - H` is
the header of a block, which is the only case in which the theorems below use it.  For a
pointer into the middle of a block the bytes of the stored pointer would overlap other
fields, which the field maps do not represent. -/
def my_free (H : Nat) (st : State) (ptr : Ptr) : State :=
  match ptr with
  | none => st
  | some p => push_head st (p - H)

/-- The free list read from pointer `p` is exactly the finite sequence `l` of header
offsets, ending in NULL. -/
def chain (next : Int → Ptr) : Ptr → List Int → Prop
  | p, [] => p = none
  | p, b :: l => p = some b ∧ chain next (next b) l

/-- The free list of a state is the finite sequence `l`. -/
def free_blocks (st : State) (l : List Int) : Prop :=
  chain st.next st.free_list l

instance chain_decidable (next : Int → Ptr) :
    (p : Ptr) → (l : List Int) → Decidable (chain next p l)
  | p, [] => inferInstanceAs (Decidable (p = none))
  | _, b :: l => @instDecidableAnd _ _ _ (chain_decidable next (next b) l)

instance free_blocks_decidable (st : State) (l : List Int) : Decidable (free_blocks st l) :=
  chain_decidable st.next st.free_list l

/-- Header `b` is on the list that starts at `p`: it is reached from `p` by following
`next` links. -/
inductive on_list (next : Int → Ptr) : Ptr → Int → Prop where
  | here (b : Int) : on_list next (some b) b
  | after (a b : Int) : on_list next (next a) b → on_list next (some a) b

/-- The globals once the first call of `my_malloc` has run `init_heap` and set the
flag, with a 16-byte header. -/
def ready16 : State :=
  (ensure_init 16 (HEAP_SIZE + 1) fresh).getD fresh

/-- The free list of `ready16`, head first. -/
def ready16_list : List Int :=
  ((carve 16 (HEAP_SIZE + 1) 0).map (fun c => (c.1 : Int))).reverse

/-- The reference partition of the specification: `HEAP_SIZE / (H + 180)` blocks of
size 180 laid end to end from offset 0, then `(HEAP_SIZE % (H + 180)) / (H + 15)` blocks
of size 15 laid end to end after them. -/
def partition_ref (H : Nat) : List (Nat × Nat) :=
  (List.range (HEAP_SIZE / (H + LARGE_SIZE))).map
      (fun k => (k * (H + LARGE_SIZE), LARGE_SIZE)) ++
    (List.range (HEAP_SIZE % (H + LARGE_SIZE) / (H + SMALL_SIZE))).map
      (fun j => (HEAP_SIZE / (H + LARGE_SIZE) * (H + LARGE_SIZE) + j * (H + SMALL_SIZE),
        SMALL_SIZE))

/-- The blocks carved by `init_heap`, in carve order. -/
def carved (H : Nat) : List (Nat × Nat) := carve H (HEAP_SIZE + 1) 0

/-- The header offsets of the carved blocks, in carve order. -/
def carved_offsets (H : Nat) : List Int := (carved H).map (fun c => (c.1 : Int))

/-- What the loop of `init_heap` achieves when it carves `blocks` starting from the
state `st` whose free list is `lacc`: the new blocks are stacked on the free list in
reverse order, their size fields are written, and nothing else changes. -/
def init_post (st st' : State) (blocks : List (Nat × Nat)) (lacc : List Int) : Prop :=
  chain st'.next st'.free_list ((blocks.map (fun c => (c.1 : Int))).reverse ++ lacc) ∧
  (∀ c ∈ blocks, st'.size c.1 = c.2) ∧
  (∀ x : Int, (∀ c ∈ blocks, (c.1 : Int) ≠ x) →
    st'.size x = st.size x ∧ st'.next x = st.next x) ∧
  st'.initialized = st.initialized ∧ st'.heap = st.heap

/-- Remove the first occurrence of a reference from the outstanding references. -/
def drop_ref (r : Int × Nat) : List (Int × Nat) → List (Int × Nat)
  | [] => []
  | x :: l => if x = r then l else x :: drop_ref r l

/-- States reachable from program start by correct use, together with the outstanding
references: the pointers returned by `my_malloc` and not yet released, each with the
size it was requested with.  A release is correct when its argument is NULL or an
outstanding reference. -/
inductive Reach (H : Nat) : State → List (Int × Nat) → Prop where
  | start : Reach H fresh []
  | malloc_some {st st' : State} {out : List (Int × Nat)} {fuel n : Nat} {p : Int} :
      Reach H st out → my_malloc H fuel st n = some (some p, st') →
      Reach H st' ((p, n) :: out)
  | malloc_null {st st' : State} {out : List (Int × Nat)} {fuel n : Nat} :
      Reach H st out → my_malloc H fuel st n = some (none, st') → Reach H st' out
  | free {st : State} {out : List (Int × Nat)} {p : Int} {n : Nat} :
      Reach H st out → (p, n) ∈ out → Reach H (my_free H st (some p)) (drop_ref (p, n) out)
  | free_null {st : State} {out : List (Int × Nat)} :
      Reach H st out → Reach H (my_free H st none) out

/-- The headers of the outstanding references: each pointer stepped back by the header
size. -/
def out_headers (H : Nat) (out : List (Int × Nat)) : List Int :=
  out.map (fun r => r.1 - (H : Int))

/-- The invariant of initialised states under correct use: the free list is the finite
sequence `l`; the carved blocks keep their size fields; the free blocks and the headers
of the outstanding references are, together, the carved blocks, each once; and every
outstanding reference was requested with the size stored in its header. -/
structure Inv (H : Nat) (st : State) (out : List (Int × Nat)) (l : List Int) : Prop where
  init : st.initialized = true
  free : free_blocks st l
  sizes : ∀ c ∈ carved H, st.size c.1 = c.2
  perm : (l ++ out_headers H out).Perm (carved_offsets H)
  out_size : ∀ r ∈ out, st.size (r.1 - H) = r.2

/-- The globals after the first `my_malloc(15)` on a fresh allocator with a 16-byte
header. -/
def after_first_small : State :=
  ((my_malloc 16 (HEAP_SIZE + 1) fresh 15).map Prod.snd).getD fresh

/-- The globals after `a = my_malloc(15); my_free(a);` on a fresh allocator with a
16-byte header (the call returns `a = heap + 4060`). -/
def after_release : State :=
  my_free 16 after_first_small (some 4060)

/-- The globals after `a = my_malloc(15); my_free(a); my_free(a);` on a fresh
allocator with a 16-byte header. -/
def after_double_free : State :=
  my_free 16 after_release (some 4060)

/-- The client loop "call `my_malloc(size)` `k` times": the pointers returned, in call
order, and the globals after the last call. -/
def malloc_repeat (H fuel : Nat) : Nat → State → Nat → Option (List Ptr × State)
  | 0, st, _ => some ([], st)
  | k + 1, st, size =>
    match my_malloc H fuel st size with
    | none => none
    | some (r, st1) =>
      match malloc_repeat H fuel k st1 size with
      | none => none
      | some (rs, st2) => some (r :: rs, st2)

/-- The number of carved blocks whose size field is `s`. -/
def class_count (H s : Nat) : Nat :=
  ((carved H).filter (fun c => decide (c.2 = s))).length

/-- The payload addresses of the carved blocks whose size field is `s`, last carved
first. -/
def class_payloads (H s : Nat) : List Int :=
  ((carved H).reverse.filter (fun c => decide (c.2 = s))).map (fun c => (c.1 : Int) + H)

/-- States reachable from program start by any use of the two functions in which every
released pointer is NULL or the payload address of a carved block, outstanding or not:
correct use, and also repeated releases of the same reference. -/
inductive Run (H : Nat) : State → Prop where
  | start : Run H fresh
  | malloc {st st' : State} {fuel n : Nat} {r : Ptr} :
      Run H st → my_malloc H fuel st n = some (r, st') → Run H st'
  | free {st : State} {p : Int} :
      Run H st → (p - (H : Int)) ∈ carved_offsets H → Run H (my_free H st (some p))
  | free_null {st : State} : Run H st → Run H (my_free H st none)

/-- Every pointer stored in the free-list head or in the `next` field of a carved block
is NULL or the offset of a carved block. -/
def closed (H : Nat) (st : State) : Prop :=
  (∀ b, st.free_list = some b → b ∈ carved_offsets H) ∧
  (∀ c ∈ carved_offsets H, ∀ b, st.next c = some b → b ∈ carved_offsets H)

/-- The function `main` (lines 72-83): its return value. -/
def main (H fuel : Nat) : Option Int :=
  match my_malloc H fuel fresh 15 with
  | none => none
  | some (a, st1) =>
    match my_malloc H fuel st1 180 with
    | none => none
    | some (b, st2) =>
      if a = none ∨ b = none then some 1
      else
        let st3 := my_free H st2 a
        let _st4 := my_free H st3 b
        some 0

/-- The client sequence `p = my_malloc(s); my_free(p); q = my_malloc(s); my_free(q);`
on a fresh allocator: the globals it leaves. -/
def release_cycle (H fuel s : Nat) : Option State :=
  match my_malloc H fuel fresh s with
  | none => none
  | some (p, st1) =>
    match my_malloc H fuel (my_free H st1 p) s with
    | none => none
    | some (q, st3) => some (my_free H st3 q)

/-- The link that `prev` designates once the scan has walked over the blocks `pre`. -/
def last_link (prev : Link) : List Int → Link
  | [] => prev
  | q :: l => last_link (Link.field q) l

end Alocator

/-!
# EEPROM 25LC040A driver (`src/EEPROM-25LC040A/main.cpp`)

The driver talks to the chip through `digitalWrite`, `digitalRead` and `delay`, which
the source defines as stand-ins for the board library (`digitalWrite` and `delay` do
nothing, `digitalRead` returns 0).  The embedding keeps a record of the calls and lets
`digitalRead` return whatever level the line carries: the level of the `k`-th read is
`input k`; the stand-in of the source is the case `input = fun _ => 0`.  Besides the pin
calls the record keeps, as `bus`, the chip-select edges and the bytes handed to
`SpiDriver::transfer`, in order.

`uint8_t` and `uint16_t` parameters are reduced modulo 256 and 65536 on entry; `int` is
two's complement of `W` bits.
-/

namespace Eeprom

/-- Line 10: `const int CS_PIN = 10;` -/
def CS_PIN : Nat := 10

/-- Line 11: `const int SCK_PIN = 11;` -/
def SCK_PIN : Nat := 11

/-- Line 12: `const int MOSI_PIN = 12;` -/
def MOSI_PIN : Nat := 12

/-- Line 13: `const int MISO_PIN = 13;` -/
def MISO_PIN : Nat := 13

/-- Line 18: `constexpr uint8_t CMD_READ = 0x03;` -/
def CMD_READ : Nat := 0x03

/-- Line 19: `constexpr uint8_t CMD_WRITE = 0x02;` -/
def CMD_WRITE : Nat := 0x02

/-- Line 20: `constexpr uint8_t CMD_WREN = 0x06;` -/
def CMD_WREN : Nat := 0x06

/-- Line 21: `constexpr uint8_t CMD_RDSR = 0x05;` -/
def CMD_RDSR : Nat := 0x05

/-- What happens on the bus, at the level of `SpiDriver`: a chip-select edge or one byte
handed to `transfer`. -/
inductive Event where
  | cs_low : Event
  | cs_high : Event
  | xfer (data : Nat) : Event

/-- The board as the driver sees it: the calls of `digitalWrite` made so far (pin,
value), the levels `digitalRead` will return, the number of reads and the milliseconds
of `delay` so far, and the bus record. -/
structure World where
  pins : List (Nat × Nat)
  input : Nat → Nat
  reads : Nat
  waited : Nat
  bus : List Event

/-- The call `digitalWrite(pin, value)` (line 4). -/
def digitalWrite (w : World) (pin value : Nat) : World :=
  { w with pins := w.pins ++ [(pin, value)] }

/-- The call `digitalRead(pin)` (line 5): the level returned and the world after. -/
def digitalRead (w : World) (_pin : Nat) : Nat × World :=
  (w.input w.reads, { w with reads := w.reads + 1 })

/-- The call `delay(ms)` (line 6). -/
def delay (w : World) (ms : Nat) : World :=
  { w with waited := w.waited + ms }

/-- The method `SpiDriver::csLow` (line 46). -/
def csLow (w : World) : World :=
  digitalWrite { w with bus := w.bus ++ [Event.cs_low] } CS_PIN 0

/-- The method `SpiDriver::csHigh` (line 47). -/
def csHigh (w : World) : World :=
  digitalWrite { w with bus := w.bus ++ [Event.cs_high] } CS_PIN 1

/-- The `for` loop of `SpiDriver::transfer` (lines 52-58), with `k = i + 1` iterations
left: the byte received and the world after. -/
def transfer_loop : Nat → World → Nat → Nat → Nat × World
  | 0, w, _, received => (received, w)
  | i + 1, w, data, received =>
    let w1 := digitalWrite w MOSI_PIN (if data &&& (1 <<< i) ≠ 0 then 1 else 0)
    let w2 := digitalWrite w1 SCK_PIN 1
    let r := digitalRead w2 MISO_PIN
    let received1 := if r.1 ≠ 0 then (received ||| (1 <<< i)) % 256 else received
    let w3 := digitalWrite r.2 SCK_PIN 0
    transfer_loop i w3 data received1

/-- The method `SpiDriver::transfer` (lines 49-60). -/
def transfer (w : World) (data : Nat) : Nat × World :=
  transfer_loop 8 { w with bus := w.bus ++ [Event.xfer (data % 256)] } (data % 256) 0

/-- The method `Eeprom25LC040A::readByte` (lines 104-115). -/
def readByte (w : World) (address : Nat) : Nat × World :=
  let address := address % 65536
  let cmd := (CMD_READ ||| (((address >>> 8) &&& 1) <<< 3)) % 256
  let w1 := csLow w
  let r2 := transfer w1 cmd
  let r3 := transfer r2.2 (address &&& 0xFF)
  let r4 := transfer r3.2 0x00
  (r4.1, csHigh r4.2)

/-- The method `Eeprom25LC040A::enableWrite` (lines 208-213). -/
def enableWrite (w : World) : World :=
  csHigh (transfer (csLow w) CMD_WREN).2

/-- The method `Eeprom25LC040A::isBusy` (lines 219-226). -/
def isBusy (w : World) : Bool × World :=
  let w1 := csLow w
  let r2 := transfer w1 CMD_RDSR
  let r3 := transfer r2.2 0x00
  (decide (r3.1 &&& 1 ≠ 0), csHigh r3.2)

/-- The loop `while (isBusy()) { delay(1); }` of `writeByte` (lines 135-137). -/
def busy_wait : Nat → World → Option World
  | 0, _ => none
  | fuel + 1, w =>
    let r := isBusy w
    if r.1 then busy_wait fuel (delay r.2 1) else some r.2

/-- The method `Eeprom25LC040A::writeByte` (lines 123-138). -/
def writeByte (fuel : Nat) (w : World) (address value : Nat) : Option World :=
  let address := address % 65536
  let w0 := enableWrite w
  let cmd := (CMD_WRITE ||| (((address >>> 8) &&& 1) <<< 3)) % 256
  let w1 := csLow w0
  let r2 := transfer w1 cmd
  let r3 := transfer r2.2 (address &&& 0xFF)
  let r4 := transfer r3.2 value
  busy_wait fuel (csHigh r4.2)

/-- The method `Eeprom25LC040A::readBit` (lines 175-180). -/
def readBit (w : World) (address bitPos : Nat) : Bool × World :=
  let bitPos := bitPos % 256
  if bitPos > 7 then (false, w)
  else
    let r := readByte w address
    (decide (r.1 &&& (1 <<< bitPos) ≠ 0), r.2)

/-- The byte that `writeBit` computes from the byte `b` it read (lines 192-197).  The
operands of `|`, `&` and `~` are `int`s of `W` bits; the result is stored in the
`uint8_t` `b`. -/
def new_byte (W b bitPos : Nat) (value : Bool) : Nat :=
  if value then (b ||| (1 <<< bitPos)) % 256
  else (b &&& (2 ^ W - 1 - (1 <<< bitPos))) % 256

/-- The method `Eeprom25LC040A::writeBit` (lines 188-199). -/
def writeBit (W fuel : Nat) (w : World) (address bitPos : Nat) (value : Bool) :
    Option World :=
  let bitPos := bitPos % 256
  if bitPos > 7 then some w
  else
    let r := readByte w address
    writeByte fuel r.2 address (new_byte W r.1 bitPos value)

/-- One poll of the status register: `isBusy` on the bus. -/
def poll : List Event :=
  [Event.cs_low, Event.xfer CMD_RDSR, Event.xfer 0, Event.cs_high]

/-- The bus record of `k` polls of the status register. -/
def polls : Nat → List Event
  | 0 => []
  | k + 1 => poll ++ polls k

/-- A world with an empty record whose lines read `input`. -/
def blank (input : Nat → Nat) : World :=
  { pins := [], input := input, reads := 0, waited := 0, bus := [] }

end Eeprom

namespace Alocator

/-! ## Field maps and chains -/

theorem upd_same {β : Type} (f : Int → β) (a : Int) (v : β) : upd f a v a = v := by
  simp [upd]

theorem upd_other {β : Type} (f : Int → β) {a x : Int} (v : β) (h : x ≠ a) :
    upd f a v x = f x := by
  simp [upd, h]

theorem chain_nil (next : Int → Ptr) (p : Ptr) : chain next p [] ↔ p = none := Iff.rfl

theorem chain_cons (next : Int → Ptr) (p : Ptr) (b : Int) (l : List Int) :
    chain next p (b :: l) ↔ p = some b ∧ chain next (next b) l := Iff.rfl

theorem chain_congr {next next' : Int → Ptr} :
    ∀ (l : List Int) (p : Ptr), (∀ x ∈ l, next' x = next x) →
      chain next p l → chain next' p l
  | [], _, _, h => h
  | b :: l, _, hx, h => by
    rw [chain_cons] at h ⊢
    refine ⟨h.1, ?_⟩
    rw [hx b (List.mem_cons_self _ _)]
    exact chain_congr l _ (fun x hm => hx x (List.mem_cons_of_mem _ hm)) h.2

theorem chain_unique {next : Int → Ptr} :
    ∀ (l1 l2 : List Int) (p : Ptr), chain next p l1 → chain next p l2 → l1 = l2
  | [], [], _, _, _ => rfl
  | [], b :: l2, p, h1, h2 => by
    rw [chain_nil] at h1
    rw [chain_cons, h1] at h2
    exact absurd h2.1 (by simp)
  | b :: l1, [], p, h1, h2 => by
    rw [chain_nil] at h2
    rw [chain_cons, h2] at h1
    exact absurd h1.1 (by simp)
  | a :: l1, b :: l2, p, h1, h2 => by
    rw [chain_cons] at h1 h2
    have hab : a = b := by
      have := h1.1.symm.trans h2.1
      simpa using this
    subst hab
    rw [chain_unique l1 l2 _ h1.2 h2.2]

theorem chain_suffix {next : Int → Ptr} :
    ∀ (l1 l2 : List Int) (p : Ptr), chain next p (l1 ++ l2) → ∃ q, chain next q l2
  | [], _, p, h => ⟨p, h⟩
  | _ :: l1, l2, _, h => chain_suffix l1 l2 _ ((chain_cons _ _ _ _).1 h).2

/-- A finite, NULL-terminated chain visits no header twice. -/
theorem chain_nodup {next : Int → Ptr} :
    ∀ (l : List Int) (p : Ptr), chain next p l → l.Nodup
  | [], _, _ => List.nodup_nil
  | b :: l, p, h => by
    rw [chain_cons] at h
    refine List.nodup_cons.2 ⟨?_, chain_nodup l _ h.2⟩
    intro hb
    obtain ⟨l1, l2, rfl⟩ := List.append_of_mem hb
    obtain ⟨q, hq⟩ := chain_suffix l1 (b :: l2) _ h.2
    rw [chain_cons] at hq
    have := chain_unique _ _ _ hq.2 h.2
    have hlen := congrArg List.length this
    simp at hlen
    omega

/-- Redirecting the `next` field of `q` past its successor `b` removes `b` from the chain. -/
theorem chain_splice {next : Int → Ptr} (q b : Int) (post : List Int) :
    ∀ (pre : List Int) (p : Ptr), chain next p (pre ++ q :: b :: post) →
      chain (upd next q (next b)) p (pre ++ q :: post)
  | [], p, h => by
    have hnd := chain_nodup _ _ h
    simp only [List.nil_append, chain_cons] at h ⊢
    refine ⟨h.1, ?_⟩
    rw [upd_same]
    refine chain_congr post _ (fun x hx => upd_other _ _ ?_) h.2.2
    rintro rfl
    simp only [List.nil_append, List.nodup_cons, List.mem_cons] at hnd
    exact hnd.1 (Or.inr hx)
  | a :: pre, p, h => by
    have hnd := chain_nodup _ _ h
    simp only [List.cons_append, chain_cons] at h ⊢
    refine ⟨h.1, ?_⟩
    have ha : a ≠ q := by
      rintro rfl
      simp at hnd
    rw [upd_other _ _ ha]
    exact chain_splice q b post pre _ h.2

theorem last_link_concat (prev : Link) (l : List Int) (q : Int) :
    last_link prev (l ++ [q]) = Link.field q := by
  induction l generalizing prev with
  | nil => rfl
  | cons a l ih => exact ih _

/-! ## The scan of `my_malloc` -/

theorem scan_hit (H n : Nat) (b : Int) (post : List Int) :
    ∀ (pre : List Int) (fuel : Nat) (st : State) (prev : Link) (cur : Ptr),
      chain st.next cur (pre ++ b :: post) → (∀ x ∈ pre, st.size x ≠ n) → st.size b = n →
      pre.length < fuel →
      scan H fuel st prev cur n
        = some (some (b + H), store_link st (last_link prev pre) (st.next b))
  | [], fuel, st, prev, cur, hc, _, hb, hf => by
    obtain ⟨f, rfl⟩ : ∃ f, fuel = f + 1 := ⟨fuel - 1, by simp at hf; omega⟩
    simp only [List.nil_append, chain_cons] at hc
    simp [scan, hc.1, hb, last_link]
  | a :: pre, fuel, st, prev, cur, hc, hpre, hb, hf => by
    obtain ⟨f, rfl⟩ : ∃ f, fuel = f + 1 := ⟨fuel - 1, by simp at hf; omega⟩
    simp only [List.cons_append, chain_cons] at hc
    have ha : st.size a ≠ n := hpre a (List.mem_cons_self _ _)
    simp only [scan, hc.1, ha, if_false, last_link]
    exact scan_hit H n b post pre f st (Link.field a) _ hc.2
      (fun x hx => hpre x (List.mem_cons_of_mem _ hx)) hb (by simp at hf; omega)

theorem scan_miss (H n : Nat) :
    ∀ (l : List Int) (fuel : Nat) (st : State) (prev : Link) (cur : Ptr),
      chain st.next cur l → (∀ x ∈ l, st.size x ≠ n) → l.length < fuel →
      scan H fuel st prev cur n = some (none, st)
  | [], fuel, st, prev, cur, hc, _, hf => by
    obtain ⟨f, rfl⟩ : ∃ f, fuel = f + 1 := ⟨fuel - 1, by simp at hf; omega⟩
    rw [chain_nil] at hc
    simp [scan, hc]
  | a :: l, fuel, st, prev, cur, hc, hl, hf => by
    obtain ⟨f, rfl⟩ : ∃ f, fuel = f + 1 := ⟨fuel - 1, by simp at hf; omega⟩
    rw [chain_cons] at hc
    have ha : st.size a ≠ n := hl a (List.mem_cons_self _ _)
    simp only [scan, hc.1, ha, if_false]
    exact scan_miss H n l f st (Link.field a) _ hc.2
      (fun x hx => hl x (List.mem_cons_of_mem _ hx)) (by simp at hf; omega)

/-- The state left by unlinking `b` after the scan walked over `pre`. -/
theorem unlink_free_blocks (st : State) (pre post : List Int) (b : Int)
    (hc : free_blocks st (pre ++ b :: post)) :
    free_blocks (store_link st (last_link Link.head pre) (st.next b)) (pre ++ post) := by
  unfold free_blocks at hc ⊢
  rcases List.eq_nil_or_concat pre with rfl | ⟨pre', q, rfl⟩
  · simp only [List.nil_append, chain_cons] at hc
    simpa [last_link, store_link] using hc.2
  · rw [List.concat_eq_append] at hc ⊢
    rw [last_link_concat]
    simp only [store_link, List.append_assoc, List.singleton_append] at hc ⊢
    exact chain_splice q b post pre' _ hc

/-- The first block of a list that has the requested size, with what precedes and follows. -/
theorem first_match (size : Int → Nat) (n : Nat) :
    ∀ (l : List Int), (∃ b ∈ l, size b = n) →
      ∃ pre b post, l = pre ++ b :: post ∧ (∀ x ∈ pre, size x ≠ n) ∧ size b = n
  | [], h => by simp at h
  | a :: l, h => by
    by_cases ha : size a = n
    · exact ⟨[], a, l, rfl, by simp, ha⟩
    · have : ∃ b ∈ l, size b = n := by
        obtain ⟨b, hb, hbn⟩ := h
        rcases List.mem_cons.1 hb with rfl | hb
        · exact absurd hbn ha
        · exact ⟨b, hb, hbn⟩
      obtain ⟨pre, b, post, rfl, hpre, hb⟩ := first_match size n l this
      refine ⟨a :: pre, b, post, rfl, ?_, hb⟩
      intro x hx
      rcases List.mem_cons.1 hx with rfl | hx
      · exact ha
      · exact hpre x hx

theorem my_malloc_initialized (H fuel : Nat) (st : State) (n : Nat)
    (hinit : st.initialized = true) :
    my_malloc H fuel st n = scan H fuel st Link.head st.free_list n := by
  simp [my_malloc, ensure_init, hinit]

/-! ## The carving loop of `init_heap` -/

theorem carve_succ (H fuel ptr : Nat) :
    carve H (fuel + 1) ptr =
      if ptr + H + 15 ≤ 4096 then
        if ptr + H + 180 ≤ 4096 then (ptr, 180) :: carve H fuel (ptr + H + 180)
        else (ptr, 15) :: carve H fuel (ptr + H + 15)
      else [] := rfl

/-- Past the bound `HEAP_SIZE - ptr` the fuel does not matter. -/
theorem carve_fuel (H : Nat) :
    ∀ (fuel fuel' ptr : Nat), HEAP_SIZE - ptr < fuel → HEAP_SIZE - ptr < fuel' →
      carve H fuel ptr = carve H fuel' ptr
  | 0, _, _, h, _ => by omega
  | _ + 1, 0, _, _, h => by omega
  | fuel + 1, fuel' + 1, ptr, h, h' => by
    simp only [HEAP_SIZE] at h h'
    rw [carve_succ, carve_succ]
    split_ifs with h1 h2
    · rw [carve_fuel H fuel fuel' _ (by simp only [HEAP_SIZE]; omega)
        (by simp only [HEAP_SIZE]; omega)]
    · rw [carve_fuel H fuel fuel' _ (by simp only [HEAP_SIZE]; omega)
        (by simp only [HEAP_SIZE]; omega)]
    · rfl

theorem carve_ge (H : Nat) :
    ∀ (fuel ptr : Nat) (c : Nat × Nat), c ∈ carve H fuel ptr → ptr ≤ c.1
  | 0, _, c, h => by simp [carve] at h
  | fuel + 1, ptr, c, h => by
    rw [carve_succ] at h
    split_ifs at h with h1 h2
    · rcases List.mem_cons.1 h with rfl | h
      · exact le_rfl
      · have := carve_ge H fuel _ c h
        omega
    · rcases List.mem_cons.1 h with rfl | h
      · exact le_rfl
      · have := carve_ge H fuel _ c h
        omega
    · simp at h

/-- Every carved block is a LARGE or a SMALL block and ends inside the arena. -/
theorem carve_bound (H : Nat) :
    ∀ (fuel ptr : Nat) (c : Nat × Nat), c ∈ carve H fuel ptr →
      (c.2 = 180 ∨ c.2 = 15) ∧ c.1 + H + c.2 ≤ HEAP_SIZE
  | 0, _, c, h => by simp [carve] at h
  | fuel + 1, ptr, c, h => by
    rw [carve_succ] at h
    split_ifs at h with h1 h2
    · rcases List.mem_cons.1 h with rfl | h
      · exact ⟨Or.inl rfl, h2⟩
      · exact carve_bound H fuel _ c h
    · rcases List.mem_cons.1 h with rfl | h
      · exact ⟨Or.inr rfl, h1⟩
      · exact carve_bound H fuel _ c h
    · simp at h

/-- Carved blocks are laid out in increasing address order without overlap. -/
theorem carve_sorted (H : Nat) :
    ∀ (fuel ptr : Nat),
      (carve H fuel ptr).Pairwise (fun a b => a.1 + H + a.2 ≤ b.1 ∧ a.1 < b.1)
  | 0, _ => by simp [carve]
  | fuel + 1, ptr => by
    rw [carve_succ]
    split_ifs with h1 h2
    · refine List.pairwise_cons.2 ⟨fun c hc => ?_, carve_sorted H fuel _⟩
      have := carve_ge H fuel _ c hc
      exact ⟨this, by simp only []; omega⟩
    · refine List.pairwise_cons.2 ⟨fun c hc => ?_, carve_sorted H fuel _⟩
      have := carve_ge H fuel _ c hc
      exact ⟨this, by simp only []; omega⟩
    · exact List.Pairwise.nil

theorem carve_head (H : Nat) :
    ∀ (fuel ptr : Nat) (c : Nat × Nat), c ∈ (carve H fuel ptr).head? → c.1 = ptr
  | 0, _, c, h => by simp [carve] at h
  | fuel + 1, ptr, c, h => by
    rw [carve_succ] at h
    split_ifs at h with h1 h2
    · simp at h; rw [← h]
    · simp at h; rw [← h]
    · simp at h

/-- Each carved block starts where the previous one ends. -/
theorem carve_contiguous (H : Nat) :
    ∀ (fuel ptr : Nat), (carve H fuel ptr).Chain' (fun a b => b.1 = a.1 + H + a.2)
  | 0, _ => by simp [carve]
  | fuel + 1, ptr => by
    rw [carve_succ]
    split_ifs with h1 h2
    · exact List.chain'_cons'.2 ⟨fun c hc => carve_head H fuel _ c hc, carve_contiguous H fuel _⟩
    · exact List.chain'_cons'.2 ⟨fun c hc => carve_head H fuel _ c hc, carve_contiguous H fuel _⟩
    · exact List.chain'_nil

theorem carve_length (H : Nat) :
    ∀ (fuel ptr : Nat), (carve H fuel ptr).length ≤ HEAP_SIZE - ptr
  | 0, _ => by simp [carve]
  | fuel + 1, ptr => by
    rw [carve_succ]
    split_ifs with h1 h2
    · have := carve_length H fuel (ptr + H + 180)
      simp only [HEAP_SIZE, List.length_cons] at this ⊢
      omega
    · have := carve_length H fuel (ptr + H + 15)
      simp only [HEAP_SIZE, List.length_cons] at this ⊢
      omega
    · simp

/-- The end of the last carved block (the cursor itself when nothing is carved) leaves less
than a SMALL block of room. -/
theorem carve_tail (H : Nat) :
    ∀ (fuel ptr : Nat), HEAP_SIZE - ptr < fuel →
      HEAP_SIZE <
        (((carve H fuel ptr).getLast?.map (fun c => c.1 + H + c.2)).getD ptr) + H + 15
  | 0, _, h => by omega
  | fuel + 1, ptr, h => by
    simp only [HEAP_SIZE] at h
    rw [carve_succ]
    split_ifs with h1 h2
    · have ih := carve_tail H fuel (ptr + H + 180) (by simp only [HEAP_SIZE]; omega)
      rw [List.getLast?_cons]
      cases hl : (carve H fuel (ptr + H + 180)).getLast? with
      | none => rw [hl] at ih; simpa using ih
      | some c => rw [hl] at ih; simpa using ih
    · have ih := carve_tail H fuel (ptr + H + 15) (by simp only [HEAP_SIZE]; omega)
      rw [List.getLast?_cons]
      cases hl : (carve H fuel (ptr + H + 15)).getLast? with
      | none => rw [hl] at ih; simpa using ih
      | some c => rw [hl] at ih; simpa using ih
    · simp only [HEAP_SIZE, List.getLast?_nil, Option.map_none', Option.getD_none]
      omega

theorem range_map_shift {β : Type} (f : Nat → β) (m : Nat) :
    (List.range (m + 1)).map f = f 0 :: (List.range m).map (fun j => f (j + 1)) := by
  rw [List.range_succ_eq_map, List.map_cons, List.map_map]
  rfl

/-- Once a LARGE block no longer fits, the loop lays SMALL blocks end to end. -/
theorem carve_small (H : Nat) :
    ∀ (m fuel ptr : Nat), 4096 < ptr + H + 180 → ptr + m * (H + 15) ≤ 4096 →
      4096 < ptr + (m + 1) * (H + 15) → HEAP_SIZE - ptr < fuel →
      carve H fuel ptr = (List.range m).map (fun j => (ptr + j * (H + 15), 15))
  | _, 0, _, _, _, _, hf => by omega
  | 0, fuel + 1, ptr, _, _, h3, _ => by
    rw [carve_succ, if_neg (by omega)]
    rfl
  | m + 1, fuel + 1, ptr, h1, h2, h3, hf => by
    simp only [HEAP_SIZE] at hf
    have e1 : (m + 1) * (H + 15) = m * (H + 15) + (H + 15) := Nat.succ_mul _ _
    have e2 : (m + 1 + 1) * (H + 15) = (m + 1) * (H + 15) + (H + 15) := Nat.succ_mul _ _
    rw [carve_succ, if_pos (by omega), if_neg (by omega), range_map_shift]
    rw [carve_small H m fuel (ptr + H + 15) (by omega) (by omega) (by omega)
      (by simp only [HEAP_SIZE]; omega)]
    simp only [Nat.zero_mul, Nat.add_zero, List.cons.injEq, true_and]
    refine List.map_congr_left (fun j _ => ?_)
    have e3 : (j + 1) * (H + 15) = j * (H + 15) + (H + 15) := Nat.succ_mul _ _
    simp only [Prod.mk.injEq, and_true]
    omega

/-- While a LARGE block fits, the loop lays LARGE blocks end to end. -/
theorem carve_large (H : Nat) :
    ∀ (m fuel fuel' ptr : Nat), ptr + m * (H + 180) ≤ 4096 → HEAP_SIZE - ptr < fuel →
      HEAP_SIZE - (ptr + m * (H + 180)) < fuel' →
      carve H fuel ptr = (List.range m).map (fun k => (ptr + k * (H + 180), 180)) ++
        carve H fuel' (ptr + m * (H + 180))
  | _, 0, _, _, _, hf, _ => by omega
  | 0, fuel + 1, fuel', ptr, _, hf, hf' => by
    simp only [Nat.zero_mul, Nat.add_zero] at hf' ⊢
    simpa using carve_fuel H (fuel + 1) fuel' ptr hf hf'
  | m + 1, fuel + 1, fuel', ptr, h1, hf, hf' => by
    simp only [HEAP_SIZE] at hf hf'
    have e1 : (m + 1) * (H + 180) = m * (H + 180) + (H + 180) := Nat.succ_mul _ _
    rw [carve_succ, if_pos (by omega), if_pos (by omega), range_map_shift]
    rw [carve_large H m fuel fuel' (ptr + H + 180) (by omega)
      (by simp only [HEAP_SIZE]; omega) (by simp only [HEAP_SIZE]; omega)]
    simp only [Nat.zero_mul, Nat.add_zero, List.cons_append, List.cons.injEq, true_and]
    have e4 : ptr + H + 180 + m * (H + 180) = ptr + (m + 1) * (H + 180) := by omega
    rw [e4]
    congr 1
    refine List.map_congr_left (fun k _ => ?_)
    have e3 : (k + 1) * (H + 180) = k * (H + 180) + (H + 180) := Nat.succ_mul _ _
    simp only [Prod.mk.injEq, and_true]
    omega

/-- The blocks carved by `init_heap` are the reference partition. -/
theorem carve_eq_partition_ref (H fuel : Nat) (hf : HEAP_SIZE < fuel) :
    carve H fuel 0 = partition_ref H := by
  simp only [HEAP_SIZE] at hf
  have hA : 0 < H + 180 := by omega
  have hB : 0 < H + 15 := by omega
  have d1 : 4096 / (H + 180) * (H + 180) ≤ 4096 := Nat.div_mul_le_self _ _
  have d2 : 4096 % (H + 180) < H + 180 := Nat.mod_lt _ hA
  have d3 : (H + 180) * (4096 / (H + 180)) + 4096 % (H + 180) = 4096 := Nat.div_add_mod _ _
  have d4 : 4096 / (H + 180) * (H + 180) = (H + 180) * (4096 / (H + 180)) := Nat.mul_comm _ _
  have d5 : 4096 % (H + 180) / (H + 15) * (H + 15) ≤ 4096 % (H + 180) :=
    Nat.div_mul_le_self _ _
  have d6 : (H + 15) * (4096 % (H + 180) / (H + 15)) + 4096 % (H + 180) % (H + 15)
      = 4096 % (H + 180) := Nat.div_add_mod _ _
  have d7 : 4096 % (H + 180) % (H + 15) < H + 15 := Nat.mod_lt _ hB
  have d8 : 4096 % (H + 180) / (H + 15) * (H + 15)
      = (H + 15) * (4096 % (H + 180) / (H + 15)) := Nat.mul_comm _ _
  have d9 : (4096 % (H + 180) / (H + 15) + 1) * (H + 15)
      = 4096 % (H + 180) / (H + 15) * (H + 15) + (H + 15) := Nat.succ_mul _ _
  rw [carve_large H (4096 / (H + 180)) fuel fuel 0 (by omega) (by simp only [HEAP_SIZE]; omega)
    (by simp only [HEAP_SIZE]; omega)]
  rw [carve_small H (4096 % (H + 180) / (H + 15)) fuel (0 + 4096 / (H + 180) * (H + 180))
    (by omega) (by omega) (by omega) (by simp only [HEAP_SIZE]; omega)]
  simp only [partition_ref, HEAP_SIZE, LARGE_SIZE, SMALL_SIZE, Nat.zero_add]

/-! ## The state built by `init_heap` -/

theorem init_heap_loop_succ (H fuel ptr : Nat) (st : State) :
    init_heap_loop H (fuel + 1) ptr st =
      if ptr + H + 15 ≤ 4096 then
        if ptr + H + 180 ≤ 4096 then
          init_heap_loop H fuel (ptr + H + 180)
            (push_head { st with size := upd st.size (ptr : Int) 180 } (ptr : Int))
        else
          init_heap_loop H fuel (ptr + H + 15)
            (push_head { st with size := upd st.size (ptr : Int) 15 } (ptr : Int))
      else some st := rfl

theorem init_post_nil (st : State) (lacc : List Int)
    (hc : chain st.next st.free_list lacc) : init_post st st [] lacc :=
  ⟨by simpa using hc, by simp, fun _ _ => ⟨rfl, rfl⟩, rfl, rfl⟩

theorem init_post_cons (st st' : State) (ptr z : Nat) (rest : List (Nat × Nat))
    (lacc : List Int) (hrest : ∀ c ∈ rest, ptr < c.1)
    (h : init_post (push_head { st with size := upd st.size (ptr : Int) z } (ptr : Int)) st'
      rest ((ptr : Int) :: lacc)) :
    init_post st st' ((ptr, z) :: rest) lacc := by
  obtain ⟨h1, h2, h3, h4, h5⟩ := h
  have hfr : ∀ c ∈ rest, (c.1 : Int) ≠ (ptr : Int) := by
    intro c hc heq
    have := hrest c hc
    omega
  refine ⟨?_, ?_, ?_, h4, h5⟩
  · simpa [List.reverse_cons, List.append_assoc] using h1
  · intro c hc
    rcases List.mem_cons.1 hc with rfl | hc
    · rw [(h3 (ptr : Int) hfr).1]
      simp [push_head, upd_same]
    · exact h2 c hc
  · intro x hx
    have hne : x ≠ (ptr : Int) := fun e => hx (ptr, z) (List.mem_cons_self _ _) e.symm
    obtain ⟨e1, e2⟩ := h3 x (fun c hc => hx c (List.mem_cons_of_mem _ hc))
    rw [e1, e2]
    simp [push_head, upd_other _ _ hne]

theorem push_head_chain (st : State) (b : Int) (l : List Int)
    (hc : chain st.next st.free_list l) (hb : b ∉ l) :
    chain (push_head st b).next (push_head st b).free_list (b :: l) := by
  simp only [push_head, chain_cons, upd_same, true_and]
  refine chain_congr l _ (fun x hx => upd_other _ _ ?_) hc
  rintro rfl
  exact hb hx

/-- The loop of `init_heap` exits within `HEAP_SIZE - ptr + 1` steps, having carved the
blocks of `carve`. -/
theorem init_heap_loop_spec (H : Nat) :
    ∀ (fuel ptr : Nat) (st : State) (lacc : List Int), HEAP_SIZE - ptr < fuel →
      chain st.next st.free_list lacc → (∀ x ∈ lacc, x < (ptr : Int)) →
      ∃ st', init_heap_loop H fuel ptr st = some st' ∧
        init_post st st' (carve H fuel ptr) lacc
  | 0, _, _, _, hf, _, _ => by omega
  | fuel + 1, ptr, st, lacc, hf, hc, hacc => by
    simp only [HEAP_SIZE] at hf
    have hnot : (ptr : Int) ∉ lacc := fun hm => by
      have := hacc _ hm
      omega
    rw [init_heap_loop_succ, carve_succ]
    split_ifs with h1 h2
    · obtain ⟨st', e, hp⟩ := init_heap_loop_spec H fuel (ptr + H + 180)
        (push_head { st with size := upd st.size (ptr : Int) 180 } (ptr : Int))
        ((ptr : Int) :: lacc) (by simp only [HEAP_SIZE]; omega)
        (push_head_chain _ _ _ hc hnot)
        (by
          intro x hx
          rcases List.mem_cons.1 hx with rfl | hx
          · push_cast; omega
          · have := hacc x hx
            push_cast; omega)
      refine ⟨st', e, init_post_cons st st' ptr 180 _ lacc (fun c hc => ?_) hp⟩
      have := carve_ge H fuel _ c hc
      omega
    · obtain ⟨st', e, hp⟩ := init_heap_loop_spec H fuel (ptr + H + 15)
        (push_head { st with size := upd st.size (ptr : Int) 15 } (ptr : Int))
        ((ptr : Int) :: lacc) (by simp only [HEAP_SIZE]; omega)
        (push_head_chain _ _ _ hc hnot)
        (by
          intro x hx
          rcases List.mem_cons.1 hx with rfl | hx
          · push_cast; omega
          · have := hacc x hx
            push_cast; omega)
      refine ⟨st', e, init_post_cons st st' ptr 15 _ lacc (fun c hc => ?_) hp⟩
      have := carve_ge H fuel _ c hc
      omega
    · exact ⟨st, rfl, init_post_nil st lacc hc⟩

/-- More fuel does not change a result of the loop of `init_heap`. -/
theorem init_heap_loop_mono (H : Nat) :
    ∀ (fuel fuel' ptr : Nat) (st st' : State), fuel ≤ fuel' →
      init_heap_loop H fuel ptr st = some st' → init_heap_loop H fuel' ptr st = some st'
  | 0, _, _, _, _, _, h => by simp [init_heap_loop] at h
  | _ + 1, 0, _, _, _, hle, _ => by omega
  | fuel + 1, fuel' + 1, ptr, st, st', hle, h => by
    rw [init_heap_loop_succ] at h ⊢
    split_ifs at h ⊢ with h1 h2
    · exact init_heap_loop_mono H fuel fuel' _ _ _ (by omega) h
    · exact init_heap_loop_mono H fuel fuel' _ _ _ (by omega) h
    · exact h

/-- More fuel does not change a result of the scan. -/
theorem scan_mono (H n : Nat) :
    ∀ (fuel fuel' : Nat) (st : State) (prev : Link) (cur : Ptr) (r : Ptr × State),
      fuel ≤ fuel' → scan H fuel st prev cur n = some r → scan H fuel' st prev cur n = some r
  | 0, _, _, _, _, _, _, h => by simp [scan] at h
  | _ + 1, 0, _, _, _, _, hle, _ => by omega
  | fuel + 1, fuel' + 1, st, prev, cur, r, hle, h => by
    cases cur with
    | none => simpa [scan] using h
    | some c =>
      simp only [scan] at h ⊢
      split_ifs at h ⊢ with h1
      · exact h
      · exact scan_mono H n fuel fuel' st _ _ r (by omega) h

theorem ensure_init_mono (H fuel fuel' : Nat) (st st1 : State) (hle : fuel ≤ fuel')
    (h : ensure_init H fuel st = some st1) : ensure_init H fuel' st = some st1 := by
  unfold ensure_init at h ⊢
  split_ifs at h ⊢ with hi
  · exact h
  · unfold init_heap at h ⊢
    cases e : init_heap_loop H fuel 0 st with
    | none => simp [e] at h
    | some s =>
      rw [init_heap_loop_mono H fuel fuel' 0 st s hle e]
      simpa [e] using h

/-- A call of `my_malloc` that returns with some fuel returns the same with more. -/
theorem my_malloc_mono (H fuel fuel' : Nat) (st : State) (n : Nat) (r : Ptr × State)
    (hle : fuel ≤ fuel') (h : my_malloc H fuel st n = some r) :
    my_malloc H fuel' st n = some r := by
  unfold my_malloc at h ⊢
  cases e : ensure_init H fuel st with
  | none => simp [e] at h
  | some s =>
    rw [ensure_init_mono H fuel fuel' st s hle e]
    simp only [e] at h
    exact scan_mono H n fuel fuel' s _ _ r hle h

/-! ## Allocation: first exact fit, and the miss -/

/-- C1. In an initialised state whose free list is the finite sequence `l`, if some free
block has stored size `n` then `l = pre ++ b :: post` where `b` is the first block of
size `n`, `my_malloc n` returns the payload address `b + H`, and the free list afterwards
is `pre ++ post`: that one block removed, the others in their order. -/
theorem my_malloc_first_fit (H : Nat) (st : State) (l : List Int) (n : Nat)
    (hinit : st.initialized = true) (hl : free_blocks st l)
    (hex : ∃ b ∈ l, st.size b = n) :
    ∃ pre b post st', l = pre ++ b :: post ∧ (∀ x ∈ pre, st.size x ≠ n) ∧ st.size b = n ∧
      (∀ fuel, l.length < fuel → my_malloc H fuel st n = some (some (b + H), st')) ∧
      free_blocks st' (pre ++ post) := by
  obtain ⟨pre, b, post, rfl, hpre, hb⟩ := first_match st.size n l hex
  refine ⟨pre, b, post, store_link st (last_link Link.head pre) (st.next b), rfl, hpre, hb,
    ?_, unlink_free_blocks st pre post b hl⟩
  intro fuel hf
  rw [my_malloc_initialized H fuel st n hinit]
  exact scan_hit H n b post pre fuel st Link.head _ hl hpre hb
    (by simp at hf; omega)

/-- C1 at the state left by initialisation with a 16-byte header, request 180. -/
theorem my_malloc_first_fit_witness :
    ∃ pre b post st', ready16_list = pre ++ b :: post ∧
      (∀ x ∈ pre, ready16.size x ≠ 180) ∧ ready16.size b = 180 ∧
      (∀ fuel, ready16_list.length < fuel →
        my_malloc 16 fuel ready16 180 = some (some (b + (16 : Nat)), st')) ∧
      free_blocks st' (pre ++ post) :=
  my_malloc_first_fit 16 ready16 ready16_list 180 (by decide) (by decide)
    ⟨3724, by decide, by decide⟩

/-- C2, as amended. In an initialised state whose free list is the finite sequence `l`,
`my_malloc n` returns; it returns NULL exactly when no block of `l` has stored size `n`;
when it returns NULL the whole state is unchanged; and a returned reference is the payload
of a free block whose stored size is `n`. -/
theorem my_malloc_null_iff (H : Nat) (st : State) (l : List Int) (n fuel : Nat)
    (hinit : st.initialized = true) (hl : free_blocks st l) (hf : l.length < fuel) :
    ∃ r st', my_malloc H fuel st n = some (r, st') ∧
      (r = none ↔ ∀ b ∈ l, st.size b ≠ n) ∧
      (r = none → st' = st) ∧
      (∀ p, r = some p → (p - H) ∈ l ∧ st.size (p - H) = n) := by
  by_cases hex : ∃ b ∈ l, st.size b = n
  · obtain ⟨pre, b, post, rfl, hpre, hb⟩ := first_match st.size n l hex
    refine ⟨some (b + H), store_link st (last_link Link.head pre) (st.next b), ?_, ?_, ?_, ?_⟩
    · rw [my_malloc_initialized H fuel st n hinit]
      exact scan_hit H n b post pre fuel st Link.head _ hl hpre hb (by simp at hf; omega)
    · constructor
      · intro h; exact absurd h (by simp)
      · intro h; exact absurd hb (h b (by simp))
    · intro h; exact absurd h (by simp)
    · intro p hp
      have : p = b + H := by simpa using hp.symm
      subst this
      simp [hb]
  · have hno : ∀ b ∈ l, st.size b ≠ n := fun b hb hbn => hex ⟨b, hb, hbn⟩
    refine ⟨none, st, ?_, ?_, fun _ => rfl, ?_⟩
    · rw [my_malloc_initialized H fuel st n hinit]
      exact scan_miss H n l fuel st Link.head _ hl hno hf
    · exact ⟨fun _ => hno, fun _ => rfl⟩
    · intro p hp; exact absurd hp (by simp)

/-- C2 as amended, at the state left by initialisation with a 16-byte header, request 271. -/
theorem my_malloc_null_iff_witness :
    ∃ r st', my_malloc 16 (HEAP_SIZE + 1) ready16 271 = some (r, st') ∧
      (r = none ↔ ∀ b ∈ ready16_list, ready16.size b ≠ 271) ∧
      (r = none → st' = ready16) ∧
      (∀ p, r = some p → (p - (16 : Nat)) ∈ ready16_list ∧ ready16.size (p - (16 : Nat)) = 271) :=
  my_malloc_null_iff 16 ready16 ready16_list 271 (HEAP_SIZE + 1) (by decide) (by decide)
    (by decide)

theorem on_list_self_loop (next : Int → Ptr) (a : Int) (hloop : next a = some a) :
    ∀ (p : Ptr) (b : Int), on_list next p b → p = some a → b = a := by
  intro p b h
  induction h with
  | here b => intro hp; simpa using hp
  | after c b _ ih =>
    intro hp
    have hc : c = a := by simpa using hp
    subst hc
    exact ih hloop

theorem scan_self_loop (H n : Nat) (st : State) (a : Int) (hloop : st.next a = some a)
    (hsize : st.size a ≠ n) :
    ∀ (fuel : Nat) (prev : Link), scan H fuel st prev (some a) n = none
  | 0, _ => rfl
  | fuel + 1, prev => by
    simp only [scan, hsize, if_false, hloop]
    exact scan_self_loop H n st a hloop hsize fuel _

/-- C2 as stated fails: after a double release the state is initialised, the only block
on the free list is the one at offset 4044 with stored size 15, so no block on the free
list has size 180, and yet `my_malloc 180` does not return NULL: its scan never exits,
whatever the fuel. -/
theorem my_malloc_null_iff_counterexample :
    after_double_free.initialized = true ∧
    after_double_free.free_list = some 4044 ∧
    after_double_free.next 4044 = some 4044 ∧
    (∀ b, on_list after_double_free.next after_double_free.free_list b →
      after_double_free.size b ≠ 180) ∧
    (∀ fuel, my_malloc 16 fuel after_double_free 180 = none) := by
  have hinit : after_double_free.initialized = true := by decide
  have hhead : after_double_free.free_list = some 4044 := by decide
  have hloop : after_double_free.next 4044 = some 4044 := by decide
  have hsize : after_double_free.size 4044 ≠ 180 := by decide
  refine ⟨hinit, hhead, hloop, ?_, ?_⟩
  · intro b hb
    rw [on_list_self_loop _ 4044 hloop _ b hb hhead]
    exact hsize
  · intro fuel
    rw [my_malloc_initialized 16 fuel _ 180 hinit, hhead]
    exact scan_self_loop 16 180 _ 4044 hloop hsize fuel _

/-! ## The partition and the initial free list -/

theorem chain_last {next : Int → Ptr} (l : List Int) (a : Int) (p : Ptr)
    (h : chain next p (l ++ [a])) : next a = none := by
  obtain ⟨q, hq⟩ := chain_suffix l [a] p h
  rw [chain_cons, chain_nil] at hq
  exact hq.2

/-- The scan over a list of blocks whose size fields are known returns the first block
of the requested size, or NULL when there is none. -/
theorem scan_find (H n : Nat) :
    ∀ (L : List (Nat × Nat)) (fuel : Nat) (st : State) (prev : Link) (cur : Ptr),
      chain st.next cur (L.map (fun c => (c.1 : Int))) →
      (∀ c ∈ L, st.size c.1 = c.2) → L.length < fuel →
      ∃ st', scan H fuel st prev cur n
        = some ((L.find? (fun c => decide (c.2 = n))).map (fun c => (c.1 : Int) + H), st')
  | _, 0, _, _, _, _, _, hf => by omega
  | [], fuel + 1, st, prev, cur, hc, _, _ => by
    simp only [List.map_nil, chain_nil] at hc
    exact ⟨st, by simp [scan, hc]⟩
  | c :: L, fuel + 1, st, prev, cur, hc, hs, hf => by
    simp only [List.map_cons, chain_cons] at hc
    have hsz : st.size c.1 = c.2 := hs c (List.mem_cons_self _ _)
    by_cases hn : c.2 = n
    · exact ⟨store_link st prev (st.next c.1),
        by simp [scan, hc.1, hsz, hn, List.find?_cons]⟩
    · obtain ⟨st', e⟩ := scan_find H n L fuel st (Link.field c.1) (st.next c.1) hc.2
        (fun d hd => hs d (List.mem_cons_of_mem _ hd)) (by simp at hf; omega)
      exact ⟨st', by simp [scan, hc.1, hsz, hn, List.find?_cons, e]⟩

/-- The first call of `my_malloc` initialises: the state it scans has the carved blocks on
the free list in reverse carve order, their size fields written, and nothing else changed. -/
theorem ensure_init_fresh (H fuel : Nat) (hf : HEAP_SIZE < fuel) :
    ∃ st1, ensure_init H fuel fresh = some st1 ∧ st1.initialized = true ∧
      init_post fresh { st1 with initialized := false } (carved H) [] := by
  obtain ⟨st', e, hp⟩ := init_heap_loop_spec H fuel 0 fresh [] (by omega) rfl (by simp)
  rw [carve_fuel H fuel (HEAP_SIZE + 1) 0 (by omega) (by omega)] at hp
  refine ⟨{ st' with initialized := true }, ?_, rfl, ?_⟩
  · have e' : init_heap H fuel fresh = some st' := e
    have hfi : fresh.initialized = false := rfl
    simp [ensure_init, e', hfi]
  · obtain ⟨h1, h2, h3, h4, h5⟩ := hp
    exact ⟨h1, h2, h3, rfl, h5⟩

/-- C6. Run on an empty free list, `init_heap` leaves the carved blocks on the free list
in the reverse of carve order: the head is the last block carved, the last node is the
block at offset 0 and its `next` is NULL.  The first `my_malloc n` on a fresh allocator
therefore returns the payload of the last-carved block whose size field is `n` (NULL when
there is none); with a 16-byte header the first `my_malloc 15` returns offset 4060 and the
first `my_malloc 180` returns offset 3740. -/
theorem init_heap_free_list_reversed (H fuel : Nat) (hf : HEAP_SIZE < fuel) (st : State)
    (hempty : st.free_list = none) :
    (∃ st', init_heap H fuel st = some st' ∧
      free_blocks st' ((carve H fuel 0).map (fun c => (c.1 : Int))).reverse ∧
      st'.free_list = (carve H fuel 0).getLast?.map (fun c => (c.1 : Int)) ∧
      (carve H fuel 0 ≠ [] →
        ((carve H fuel 0).map (fun c => (c.1 : Int))).reverse.getLast? = some 0 ∧
        st'.next 0 = none)) ∧
    (∀ n, ∃ st'', my_malloc H fuel fresh n
      = some (((carve H fuel 0).reverse.find? (fun c => decide (c.2 = n))).map
          (fun c => (c.1 : Int) + H), st'')) ∧
    (∃ s, my_malloc 16 fuel fresh 15 = some (some 4060, s)) ∧
    (∃ s, my_malloc 16 fuel fresh 180 = some (some 3740, s)) := by
  refine ⟨?_, ?_, ?_, ?_⟩
  · obtain ⟨st', e, hp⟩ := init_heap_loop_spec H fuel 0 st [] (by omega)
      (by rw [hempty]; rfl) (by simp)
    have hch : free_blocks st' ((carve H fuel 0).map (fun c => (c.1 : Int))).reverse := by
      simpa [free_blocks] using hp.1
    refine ⟨st', e, hch, ?_, ?_⟩
    · unfold free_blocks at hch
      cases hl : (carve H fuel 0).getLast? with
      | none =>
        rw [List.getLast?_eq_none_iff] at hl
        rw [hl] at hch
        simpa using hch
      | some c =>
        obtain ⟨l', hl'⟩ := List.getLast?_eq_some_iff.1 hl
        rw [hl'] at hch
        simp only [List.map_append, List.map_cons, List.map_nil, List.reverse_append,
          List.reverse_cons, List.reverse_nil, List.nil_append, List.singleton_append,
          chain_cons] at hch
        simpa using hch.1
    · intro hne
      obtain ⟨c, l', hl'⟩ := List.exists_cons_of_ne_nil hne
      have hc0 : c.1 = 0 := carve_head H fuel 0 c (by rw [hl']; simp)
      unfold free_blocks at hch
      rw [hl'] at hch ⊢
      simp only [List.map_cons, List.reverse_cons, hc0] at hch ⊢
      exact ⟨by simp, chain_last _ _ _ hch⟩
  · intro n
    obtain ⟨st1, e, hi, hp⟩ := ensure_init_fresh H fuel hf
    have hcv : carve H fuel 0 = carved H := carve_fuel H fuel (HEAP_SIZE + 1) 0 (by omega)
      (by omega)
    have hlen := carve_length H (HEAP_SIZE + 1) 0
    obtain ⟨st'', e2⟩ := scan_find H n (carved H).reverse fuel st1 Link.head st1.free_list
      (by simpa [List.map_reverse] using hp.1)
      (fun c hc => hp.2.1 c (List.mem_reverse.1 hc))
      (by simp only [List.length_reverse]; unfold carved; omega)
    exact ⟨st'', by rw [hcv]; simp [my_malloc, e, e2]⟩
  · have h0 : (my_malloc 16 (HEAP_SIZE + 1) fresh 15).map Prod.fst = some (some 4060) := by
      decide
    cases e : my_malloc 16 (HEAP_SIZE + 1) fresh 15 with
    | none => simp [e] at h0
    | some r =>
      have hr : r.1 = some 4060 := by simpa [e] using h0
      refine ⟨r.2, ?_⟩
      rw [my_malloc_mono 16 (HEAP_SIZE + 1) fuel fresh 15 r (by omega) e, ← hr]
  · have h0 : (my_malloc 16 (HEAP_SIZE + 1) fresh 180).map Prod.fst = some (some 3740) := by
      decide
    cases e : my_malloc 16 (HEAP_SIZE + 1) fresh 180 with
    | none => simp [e] at h0
    | some r =>
      have hr : r.1 = some 3740 := by simpa [e] using h0
      refine ⟨r.2, ?_⟩
      rw [my_malloc_mono 16 (HEAP_SIZE + 1) fuel fresh 180 r (by omega) e, ← hr]

/-! ## The invariant of correct use -/

theorem store_link_size (st : State) (k : Link) (v : Ptr) :
    (store_link st k v).size = st.size := by
  cases k <;> rfl

theorem store_link_initialized (st : State) (k : Link) (v : Ptr) :
    (store_link st k v).initialized = st.initialized := by
  cases k <;> rfl

theorem perm_cons_drop_ref (r : Int × Nat) :
    ∀ (l : List (Int × Nat)), r ∈ l → l.Perm (r :: drop_ref r l)
  | [], h => by simp at h
  | x :: l, h => by
    by_cases hx : x = r
    · subst hx
      simp [drop_ref]
    · have hm : r ∈ l := by
        rcases List.mem_cons.1 h with rfl | h
        · exact absurd rfl hx
        · exact h
      simp only [drop_ref, hx, if_false]
      exact ((perm_cons_drop_ref r l hm).cons x).trans (List.Perm.swap r x _)

theorem mem_of_mem_drop_ref (r x : Int × Nat) :
    ∀ (l : List (Int × Nat)), x ∈ drop_ref r l → x ∈ l
  | [], h => by simp [drop_ref] at h
  | y :: l, h => by
    by_cases hy : y = r
    · simp only [drop_ref, hy, if_true] at h
      exact List.mem_cons_of_mem _ h
    · simp only [drop_ref, hy, if_false] at h
      rcases List.mem_cons.1 h with rfl | h
      · exact List.mem_cons_self _ _
      · exact List.mem_cons_of_mem _ (mem_of_mem_drop_ref r x l h)

theorem carved_offsets_nodup (H : Nat) : (carved_offsets H).Nodup := by
  unfold carved_offsets carved
  rw [List.Nodup, List.pairwise_map]
  refine (carve_sorted H (HEAP_SIZE + 1) 0).imp ?_
  intro a b hab heq
  have := hab.2
  omega

theorem carved_length (H : Nat) : (carved_offsets H).length ≤ HEAP_SIZE := by
  have := carve_length H (HEAP_SIZE + 1) 0
  simpa [carved_offsets, carved] using this

theorem inv_length {H : Nat} {st : State} {out : List (Int × Nat)} {l : List Int}
    (h : Inv H st out l) : l.length ≤ HEAP_SIZE := by
  have h1 := h.perm.length_eq
  have h2 := carved_length H
  simp only [List.length_append] at h1
  omega

theorem inv_nodup {H : Nat} {st : State} {out : List (Int × Nat)} {l : List Int}
    (h : Inv H st out l) : (l ++ out_headers H out).Nodup :=
  (h.perm.nodup_iff).2 (carved_offsets_nodup H)

/-- The size field of a free block is that of a carved block: 180 or 15. -/
theorem inv_free_size {H : Nat} {st : State} {out : List (Int × Nat)} {l : List Int}
    (h : Inv H st out l) (b : Int) (hb : b ∈ l) :
    (st.size b = 180 ∨ st.size b = 15) ∧ 0 ≤ b ∧ b + H + st.size b ≤ HEAP_SIZE := by
  have hm : b ∈ carved_offsets H := (h.perm.mem_iff).1 (List.mem_append_left _ hb)
  obtain ⟨c, hc, rfl⟩ := List.mem_map.1 hm
  have hb := carve_bound H _ _ c hc
  rw [h.sizes c hc]
  refine ⟨hb.1, by omega, ?_⟩
  have := hb.2
  omega

/-- The state scanned by the first `my_malloc` satisfies the invariant with no
outstanding reference. -/
theorem my_malloc_fresh (H fuel : Nat) (hf : HEAP_SIZE < fuel) :
    ∃ st1, ensure_init H fuel fresh = some st1 ∧ Inv H st1 [] (carved_offsets H).reverse ∧
      ∀ n, my_malloc H fuel fresh n = my_malloc H fuel st1 n := by
  obtain ⟨st1, e, hi, hp⟩ := ensure_init_fresh H fuel hf
  refine ⟨st1, e, ?_, ?_⟩
  · refine ⟨hi, ?_, hp.2.1, ?_, by simp⟩
    · have := hp.1
      simpa [free_blocks, carved_offsets] using this
    · simp [out_headers]
  · intro n
    rw [my_malloc_initialized H fuel st1 n hi]
    simp [my_malloc, e]

/-- The two outcomes of `my_malloc` in a state with a finite free list. -/
theorem my_malloc_cases (H : Nat) (st : State) (l : List Int) (n fuel : Nat)
    (hinit : st.initialized = true) (hl : free_blocks st l) (hf : l.length < fuel) :
    ((∀ b ∈ l, st.size b ≠ n) ∧ my_malloc H fuel st n = some (none, st)) ∨
    (∃ pre b post, l = pre ++ b :: post ∧ (∀ x ∈ pre, st.size x ≠ n) ∧ st.size b = n ∧
      my_malloc H fuel st n
        = some (some (b + H), store_link st (last_link Link.head pre) (st.next b))) := by
  rw [my_malloc_initialized H fuel st n hinit]
  by_cases hex : ∃ b ∈ l, st.size b = n
  · obtain ⟨pre, b, post, rfl, hpre, hb⟩ := first_match st.size n l hex
    exact Or.inr ⟨pre, b, post, rfl, hpre, hb,
      scan_hit H n b post pre fuel st Link.head _ hl hpre hb (by simp at hf; omega)⟩
  · have hno : ∀ b ∈ l, st.size b ≠ n := fun b hb hbn => hex ⟨b, hb, hbn⟩
    exact Or.inl ⟨hno, scan_miss H n l fuel st Link.head _ hl hno hf⟩

/-- Unlinking a free block keeps the invariant, the block becoming outstanding. -/
theorem inv_unlink {H : Nat} {st : State} {out : List (Int × Nat)} {pre post : List Int}
    {b : Int} (n : Nat) (h : Inv H st out (pre ++ b :: post)) (hb : st.size b = n) :
    Inv H (store_link st (last_link Link.head pre) (st.next b)) ((b + H, n) :: out)
      (pre ++ post) := by
  refine ⟨?_, unlink_free_blocks st pre post b h.free, ?_, ?_, ?_⟩
  · rw [store_link_initialized]; exact h.init
  · rw [store_link_size]; exact h.sizes
  · have e : out_headers H ((b + H, n) :: out) = b :: out_headers H out := by
      simp [out_headers]
    rw [e]
    refine List.Perm.trans ?_ h.perm
    simp only [List.append_assoc, List.cons_append]
    exact List.Perm.append_left pre List.perm_middle
  · rw [store_link_size]
    intro r hr
    rcases List.mem_cons.1 hr with rfl | hr
    · simpa using hb
    · exact h.out_size r hr

/-- Releasing an outstanding reference keeps the invariant, its block becoming the head
of the free list. -/
theorem inv_free {H : Nat} {st : State} {out : List (Int × Nat)} {l : List Int}
    {p : Int} {n : Nat} (h : Inv H st out l) (hp : (p, n) ∈ out) :
    Inv H (my_free H st (some p)) (drop_ref (p, n) out) ((p - H) :: l) := by
  have hperm : out.Perm ((p, n) :: drop_ref (p, n) out) := perm_cons_drop_ref _ _ hp
  have hout : (out_headers H out).Perm ((p - H) :: out_headers H (drop_ref (p, n) out)) := by
    simpa [out_headers] using hperm.map (fun r : Int × Nat => r.1 - (H : Int))
  have hnd := inv_nodup h
  have hnot : (p - (H : Int)) ∉ l := by
    intro hm
    have hd := List.disjoint_of_nodup_append hnd
    exact hd hm (by simpa [out_headers] using ⟨n, hp⟩)
  refine ⟨h.init, push_head_chain st _ l h.free hnot, h.sizes, ?_, ?_⟩
  · refine List.Perm.trans ?_ h.perm
    simp only [List.cons_append]
    exact (List.perm_middle.symm).trans (List.Perm.append_left l hout.symm)
  · intro r hr
    exact h.out_size r (mem_of_mem_drop_ref _ _ _ hr)

/-- Every state reachable by correct use is the fresh state with nothing outstanding, or
an initialised state that satisfies the invariant. -/
theorem reach_inv {H : Nat} {st : State} {out : List (Int × Nat)} (hr : Reach H st out) :
    (st = fresh ∧ out = []) ∨ ∃ l, Inv H st out l := by
  induction hr with
  | start => exact Or.inl ⟨rfl, rfl⟩
  | @malloc_some st st' out fuel n p _ e ih =>
    right
    have e' := my_malloc_mono H fuel (fuel + (HEAP_SIZE + 1)) st n _ (by omega) e
    have key : ∃ st1 l, Inv H st1 out l ∧
        my_malloc H (fuel + (HEAP_SIZE + 1)) st1 n = some (some p, st') := by
      rcases ih with ⟨rfl, rfl⟩ | ⟨l, hl⟩
      · obtain ⟨st1, _, hinv, hm⟩ := my_malloc_fresh H (fuel + (HEAP_SIZE + 1)) (by omega)
        exact ⟨st1, _, hinv, by rw [← hm]; exact e'⟩
      · exact ⟨st, l, hl, e'⟩
    obtain ⟨st1, l, hinv, e1⟩ := key
    have hlen := inv_length hinv
    rcases my_malloc_cases H st1 l n (fuel + (HEAP_SIZE + 1)) hinv.init hinv.free
        (by omega) with
      ⟨_, e2⟩ | ⟨pre, b, post, rfl, _, hb, e2⟩
    · rw [e2] at e1; simp at e1
    · rw [e2] at e1
      simp only [Option.some.injEq, Prod.mk.injEq] at e1
      obtain ⟨rfl, rfl⟩ := e1
      exact ⟨pre ++ post, inv_unlink n hinv hb⟩
  | @malloc_null st st' out fuel n _ e ih =>
    right
    have e' := my_malloc_mono H fuel (fuel + (HEAP_SIZE + 1)) st n _ (by omega) e
    have key : ∃ st1 l, Inv H st1 out l ∧
        my_malloc H (fuel + (HEAP_SIZE + 1)) st1 n = some (none, st') := by
      rcases ih with ⟨rfl, rfl⟩ | ⟨l, hl⟩
      · obtain ⟨st1, _, hinv, hm⟩ := my_malloc_fresh H (fuel + (HEAP_SIZE + 1)) (by omega)
        exact ⟨st1, _, hinv, by rw [← hm]; exact e'⟩
      · exact ⟨st, l, hl, e'⟩
    obtain ⟨st1, l, hinv, e1⟩ := key
    have hlen := inv_length hinv
    rcases my_malloc_cases H st1 l n (fuel + (HEAP_SIZE + 1)) hinv.init hinv.free
        (by omega) with
      ⟨_, e2⟩ | ⟨pre, b, post, rfl, _, hb, e2⟩
    · rw [e2] at e1
      simp only [Option.some.injEq, Prod.mk.injEq, true_and] at e1
      subst e1
      exact ⟨l, hinv⟩
    · rw [e2] at e1; simp at e1
  | @free st out p n _ hp ih =>
    right
    rcases ih with ⟨_, rfl⟩ | ⟨l, hl⟩
    · simp at hp
    · exact ⟨_, inv_free hl hp⟩
  | free_null _ ih => exact ih

theorem after_first_small_eq :
    my_malloc 16 (HEAP_SIZE + 1) fresh 15 = some (some 4060, after_first_small) := rfl

/-! ## Release, and release followed by allocation -/

/-- C3. In a state reachable by correct use, for an outstanding reference `p` that was
returned by `my_malloc s`: `my_free p` followed by `my_malloc s` returns `p` again (one
step of the scan suffices), and the free list after the two calls is the same finite
sequence of blocks as before them. -/
theorem free_then_malloc_roundtrip (H : Nat) (st : State) (out : List (Int × Nat))
    (p : Int) (s fuel : Nat) (hr : Reach H st out) (hp : (p, s) ∈ out) (hf : 0 < fuel) :
    ∃ l st', free_blocks st l ∧
      my_malloc H fuel (my_free H st (some p)) s = some (some p, st') ∧
      free_blocks st' l := by
  rcases reach_inv hr with ⟨_, rfl⟩ | ⟨l, hinv⟩
  · simp at hp
  · have hinv1 := inv_free hinv hp
    have hsz : (my_free H st (some p)).size (p - H) = s := hinv.out_size (p, s) hp
    have hch : chain (my_free H st (some p)).next (my_free H st (some p)).free_list
        ([] ++ (p - (H : Int)) :: l) := hinv1.free
    refine ⟨l, _, hinv.free, ?_, unlink_free_blocks _ [] l (p - H) hch⟩
    rw [my_malloc_initialized H fuel _ s hinv1.init,
      scan_hit H s (p - H) l [] fuel _ Link.head _ hch (by simp) hsz (by simpa using hf)]
    simp

/-- C3 after the first `my_malloc(15)` of a fresh allocator with a 16-byte header. -/
theorem free_then_malloc_roundtrip_witness :
    ∃ l st', free_blocks after_first_small l ∧
      my_malloc 16 1 (my_free 16 after_first_small (some 4060)) 15 = some (some 4060, st') ∧
      free_blocks st' l :=
  free_then_malloc_roundtrip 16 after_first_small [(4060, 15)] 4060 15 1
    (Reach.malloc_some Reach.start after_first_small_eq) (by simp) (by decide)

/-- C4, as amended. For every non-null payload reference `p`, that is, with `p - H` the
header of a carved block (so that header and payload lie inside the arena): `my_free p`
makes that block the head of the free list with its `next` set to the previous head, and modifies no size field, no other `next` field, not
the flag and no payload byte; when the free list before is the finite sequence `l` and
the block is not on it, the free list after is that block followed by `l`. -/
theorem my_free_pushes_head (H : Nat) (st : State) (p : Int)
    (hp : (p - (H : Int)) ∈ carved_offsets H) :
    ((H : Int) ≤ p ∧ p + 15 ≤ HEAP_SIZE) ∧
    (my_free H st (some p)).free_list = some (p - H) ∧
    (my_free H st (some p)).next (p - H) = st.free_list ∧
    (my_free H st (some p)).size = st.size ∧
    (∀ x, x ≠ p - H → (my_free H st (some p)).next x = st.next x) ∧
    (my_free H st (some p)).initialized = st.initialized ∧
    (my_free H st (some p)).heap = st.heap ∧
    (∀ l, free_blocks st l → (p - H) ∉ l →
      free_blocks (my_free H st (some p)) ((p - H) :: l)) := by
  refine ⟨?_, rfl, ?_, rfl, ?_, rfl, rfl, ?_⟩
  · obtain ⟨c, hc, hcp⟩ := List.mem_map.1 hp
    have hb := carve_bound H _ _ c hc
    simp only [HEAP_SIZE] at hb ⊢
    rcases hb.1 with h | h <;> constructor <;> omega
  · simp [my_free, push_head, upd_same]
  · intro x hx
    simp [my_free, push_head, upd_other _ _ hx]
  · intro l hl hnot
    exact push_head_chain st _ l hl hnot

/-- C4 as amended, at the release of the reference returned by the first
`my_malloc(15)`, the payload of the carved block at 4044: the free list grows from the
24 remaining blocks to 25. -/
theorem my_free_pushes_head_witness :
    ((4060 : Int) - (16 : Nat)) ∈ carved_offsets 16 ∧
    free_blocks after_first_small ready16_list.tail ∧
    (4060 - (16 : Nat) : Int) ∉ ready16_list.tail ∧
    (my_free 16 after_first_small (some 4060)).size = after_first_small.size ∧
    free_blocks (my_free 16 after_first_small (some 4060))
      ((4060 - (16 : Nat)) :: ready16_list.tail) :=
  ⟨by decide, by decide, by decide,
    (my_free_pushes_head 16 after_first_small 4060 (by decide)).2.2.2.1,
    (my_free_pushes_head 16 after_first_small 4060 (by decide)).2.2.2.2.2.2.2
      ready16_list.tail (by decide) (by decide)⟩

/-- C4 as stated fails on a second release of the same reference: after
`a = my_malloc(15); my_free(a)` the free list is the finite sequence `ready16_list` with
the block of `a` at its head; `my_free(a)` then makes that block its own successor, so
the free list is not that block followed by the list before (it is no finite sequence
at all). -/
theorem my_free_pushes_head_counterexample :
    free_blocks after_release ready16_list ∧
    ready16_list.head? = some (4060 - (16 : Nat)) ∧
    (my_free 16 after_release (some 4060)).next (4060 - (16 : Nat)) = some (4060 - (16 : Nat)) ∧
    ¬ free_blocks (my_free 16 after_release (some 4060))
      ((4060 - (16 : Nat)) :: ready16_list) ∧
    ∀ l, ¬ free_blocks (my_free 16 after_release (some 4060)) l := by
  have hloop : (my_free 16 after_release (some 4060)).next 4044 = some 4044 := by decide
  have hhead : (my_free 16 after_release (some 4060)).free_list = some 4044 := by decide
  refine ⟨by decide, by decide, by decide, by decide, ?_⟩
  intro l hl
  unfold free_blocks at hl
  rw [hhead] at hl
  cases l with
  | nil => simp [chain] at hl
  | cons b l =>
    rw [chain_cons] at hl
    have hb : b = 4044 := by simpa using hl.1.symm
    subst hb
    have hnd := chain_nodup (4044 :: l) (some 4044) ((chain_cons _ _ _ _).2 hl)
    rw [hloop] at hl
    cases l with
    | nil => simp [chain] at hl
    | cons c l =>
      rw [chain_cons] at hl
      have hc : c = 4044 := by simpa using hl.2.1.symm
      subst hc
      simp at hnd

/-! ## Any use with payload references of carved blocks -/

theorem closed_push_head (H : Nat) (st : State) (b : Int) (hc : closed H st)
    (hb : b ∈ carved_offsets H) : closed H (push_head st b) := by
  refine ⟨?_, ?_⟩
  · intro x hx
    have : x = b := by simpa [push_head] using hx.symm
    rw [this]; exact hb
  · intro c hcm x hx
    by_cases hcb : c = b
    · subst hcb
      simp only [push_head, upd_same] at hx
      exact hc.1 x hx
    · simp only [push_head, upd_other _ _ hcb] at hx
      exact hc.2 c hcm x hx

theorem closed_store_link (H : Nat) (st : State) (k : Link) (v : Ptr) (hc : closed H st)
    (hv : ∀ b, v = some b → b ∈ carved_offsets H) : closed H (store_link st k v) := by
  cases k with
  | head => exact ⟨hv, hc.2⟩
  | field q =>
    refine ⟨hc.1, ?_⟩
    intro c hcm x hx
    by_cases hcq : c = q
    · subst hcq
      simp only [store_link, upd_same] at hx
      exact hv x hx
    · simp only [store_link, upd_other _ _ hcq] at hx
      exact hc.2 c hcm x hx

/-- Whatever the free list looks like, a scan that returns leaves the pointers closed,
changes no size field, and returns NULL or the payload of a carved block whose size
field is the request. -/
theorem scan_closed (H n : Nat) :
    ∀ (fuel : Nat) (st st' : State) (prev : Link) (cur r : Ptr), closed H st →
      (∀ b, cur = some b → b ∈ carved_offsets H) →
      scan H fuel st prev cur n = some (r, st') →
      closed H st' ∧ st'.size = st.size ∧ st'.initialized = st.initialized ∧
        ∀ p, r = some p → (p - (H : Int)) ∈ carved_offsets H ∧ st.size (p - H) = n
  | 0, _, _, _, _, _, _, _, h => by simp [scan] at h
  | fuel + 1, st, st', prev, cur, r, hc, hcur, h => by
    cases cur with
    | none =>
      simp only [scan, Option.some.injEq, Prod.mk.injEq] at h
      obtain ⟨rfl, rfl⟩ := h
      exact ⟨hc, rfl, rfl, fun p hp => by simp at hp⟩
    | some c =>
      have hcm : c ∈ carved_offsets H := hcur c rfl
      simp only [scan] at h
      split_ifs at h with hsz
      · simp only [Option.some.injEq, Prod.mk.injEq] at h
        obtain ⟨rfl, rfl⟩ := h
        refine ⟨closed_store_link H st prev _ hc (hc.2 c hcm), store_link_size _ _ _,
          store_link_initialized _ _ _, ?_⟩
        intro p hp
        have : p = c + H := by simpa using hp.symm
        subst this
        simpa using ⟨hcm, hsz⟩
      · exact scan_closed H n fuel st st' _ _ r hc (hc.2 c hcm) h

/-- Whatever the state `init_heap` starts from, its loop keeps the pointers closed and
leaves the size fields of the blocks it carves as carved. -/
theorem init_heap_loop_closed (H : Nat) :
    ∀ (fuel ptr : Nat) (st st' : State),
      (∀ c ∈ carve H fuel ptr, (c.1 : Int) ∈ carved_offsets H) → closed H st →
      init_heap_loop H fuel ptr st = some st' →
      closed H st' ∧ (∀ c ∈ carve H fuel ptr, st'.size c.1 = c.2) ∧
        ∀ x : Int, x < ptr → st'.size x = st.size x
  | 0, _, _, _, _, _, h => by simp [init_heap_loop] at h
  | fuel + 1, ptr, st, st', hcv, hc, h => by
    rw [init_heap_loop_succ] at h
    rw [carve_succ] at hcv ⊢
    split_ifs at h hcv ⊢ with h1 h2
    · have hp : (ptr : Int) ∈ carved_offsets H := hcv _ (List.mem_cons_self _ _)
      obtain ⟨a1, a2, a3⟩ := init_heap_loop_closed H fuel _ _ st'
        (fun c hm => hcv c (List.mem_cons_of_mem _ hm))
        (closed_push_head H { st with size := upd st.size (ptr : Int) 180 } ptr hc hp) h
      refine ⟨a1, ?_, ?_⟩
      · intro c hm
        rcases List.mem_cons.1 hm with rfl | hm
        · rw [a3 (ptr : Int) (by push_cast; omega)]
          simp [push_head, upd_same]
        · exact a2 c hm
      · intro x hx
        rw [a3 x (by push_cast; omega)]
        simp [push_head, upd_other _ _ (ne_of_lt hx)]
    · have hp : (ptr : Int) ∈ carved_offsets H := hcv _ (List.mem_cons_self _ _)
      obtain ⟨a1, a2, a3⟩ := init_heap_loop_closed H fuel _ _ st'
        (fun c hm => hcv c (List.mem_cons_of_mem _ hm))
        (closed_push_head H { st with size := upd st.size (ptr : Int) 15 } ptr hc hp) h
      refine ⟨a1, ?_, ?_⟩
      · intro c hm
        rcases List.mem_cons.1 hm with rfl | hm
        · rw [a3 (ptr : Int) (by push_cast; omega)]
          simp [push_head, upd_same]
        · exact a2 c hm
      · intro x hx
        rw [a3 x (by push_cast; omega)]
        simp [push_head, upd_other _ _ (ne_of_lt hx)]
    · simp only [Option.some.injEq] at h
      subst h
      exact ⟨hc, by simp, fun _ _ => rfl⟩

/-- A call of `my_malloc` that returns, from a state with closed pointers whose carved
size fields are intact once initialised, leaves such a state and returns NULL or the
payload of a carved block whose size field is the request. -/
theorem my_malloc_closed (H fuel n : Nat) (st st' : State) (r : Ptr)
    (hc : closed H st) (hsz : st.initialized = true → ∀ c ∈ carved H, st.size c.1 = c.2)
    (h : my_malloc H fuel st n = some (r, st')) :
    closed H st' ∧ st'.initialized = true ∧ (∀ c ∈ carved H, st'.size c.1 = c.2) ∧
      ∀ p, r = some p → (p - (H : Int)) ∈ carved_offsets H ∧ st'.size (p - H) = n := by
  have h' := my_malloc_mono H fuel (fuel + (HEAP_SIZE + 1)) st n _ (by omega) h
  unfold my_malloc at h'
  cases e : ensure_init H (fuel + (HEAP_SIZE + 1)) st with
  | none => simp [e] at h'
  | some st1 =>
    simp only [e] at h'
    have key : closed H st1 ∧ st1.initialized = true ∧ ∀ c ∈ carved H, st1.size c.1 = c.2 := by
      unfold ensure_init at e
      split_ifs at e with hi
      · simp only [Option.some.injEq] at e
        subst e
        exact ⟨hc, hi, hsz hi⟩
      · unfold init_heap at e
        cases e2 : init_heap_loop H (fuel + (HEAP_SIZE + 1)) 0 st with
        | none => simp [e2] at e
        | some s2 =>
          simp only [e2, Option.some.injEq] at e
          subst e
          have hcv : carve H (fuel + (HEAP_SIZE + 1)) 0 = carved H :=
            carve_fuel H _ _ 0 (by omega) (by omega)
          obtain ⟨a1, a2, _⟩ := init_heap_loop_closed H _ 0 st s2
            (fun c hm => List.mem_map.2 ⟨c, by rw [← hcv]; exact hm, rfl⟩) hc e2
          rw [hcv] at a2
          exact ⟨a1, rfl, a2⟩
    obtain ⟨k1, k2, k3⟩ := key
    obtain ⟨b1, b2, b3, b4⟩ := scan_closed H n _ st1 st' Link.head _ r k1 k1.1 h'
    refine ⟨b1, by rw [b3]; exact k2, by rw [b2]; exact k3, ?_⟩
    intro p hp
    rw [b2]
    exact b4 p hp

/-- The invariant of every use with payload references of carved blocks. -/
theorem run_closed {H : Nat} {st : State} (hr : Run H st) :
    closed H st ∧ (st.initialized = true → ∀ c ∈ carved H, st.size c.1 = c.2) := by
  induction hr with
  | start => exact ⟨⟨fun b h => by simp [fresh] at h, fun c _ b h => by simp [fresh] at h⟩,
      fun h => by simp [fresh] at h⟩
  | malloc _ e ih =>
    obtain ⟨a1, _, a3, _⟩ := my_malloc_closed H _ _ _ _ _ ih.1 ih.2 e
    exact ⟨a1, fun _ => a3⟩
  | free _ hp ih => exact ⟨closed_push_head H _ _ ih.1 hp, ih.2⟩
  | free_null _ ih => exact ih

/-- Correct use is a use with payload references of carved blocks. -/
theorem reach_run {H : Nat} {st : State} {out : List (Int × Nat)} (hr : Reach H st out) :
    Run H st := by
  induction hr with
  | start => exact Run.start
  | malloc_some _ e ih => exact Run.malloc ih e
  | malloc_null _ e ih => exact Run.malloc ih e
  | @free st out p n hr0 hp ih =>
    refine Run.free ih ?_
    rcases reach_inv hr0 with ⟨_, rfl⟩ | ⟨l, hinv⟩
    · simp at hp
    · exact (hinv.perm.mem_iff).1
        (List.mem_append_right _ (List.mem_map.2 ⟨(p, n), hp, rfl⟩))
  | free_null _ ih => exact Run.free_null ih

/-! ## Sizes outside the two classes, and bounds -/

/-- In a state reachable by correct use, `my_malloc` with fuel above `HEAP_SIZE` scans an
initialised state that satisfies the invariant, whose free list is shorter than the fuel. -/
theorem reach_malloc (H : Nat) (st : State) (out : List (Int × Nat)) (n fuel : Nat)
    (hr : Reach H st out) (hf : HEAP_SIZE < fuel) :
    ∃ st1 l, Inv H st1 out l ∧ (st.initialized = true → st1 = st) ∧
      my_malloc H fuel st n = my_malloc H fuel st1 n ∧ l.length < fuel := by
  rcases reach_inv hr with ⟨rfl, rfl⟩ | ⟨l, hinv⟩
  · obtain ⟨st1, _, hinv, hm⟩ := my_malloc_fresh H fuel hf
    have := inv_length hinv
    exact ⟨st1, _, hinv, fun h => by simp [fresh] at h, hm n, by omega⟩
  · have := inv_length hinv
    exact ⟨st, l, hinv, fun _ => rfl, rfl, by omega⟩

/-- C9. In every state reachable by correct use, `my_malloc n` for a size other than 15
and 180 returns NULL (and leaves an initialised state unchanged), whatever the size of
`n`: so also for 271 and 436, which agree with 15 and 180 modulo 256.  The eight-bit
stores of the two class sizes lose nothing. -/
theorem my_malloc_other_size_null (H : Nat) (st : State) (out : List (Int × Nat))
    (n fuel : Nat) (hr : Reach H st out) (h15 : n ≠ 15) (h180 : n ≠ 180)
    (hf : HEAP_SIZE < fuel) :
    (∃ st', my_malloc H fuel st n = some (none, st') ∧ (st.initialized = true → st' = st)) ∧
    SMALL_SIZE % 256 = 15 ∧ LARGE_SIZE % 256 = 180 := by
  refine ⟨?_, by decide, by decide⟩
  obtain ⟨st1, l, hinv, hsame, hm, hlen⟩ := reach_malloc H st out n fuel hr hf
  have hno : ∀ b ∈ l, st1.size b ≠ n := by
    intro b hb
    rcases (inv_free_size hinv b hb).1 with h | h
    · rw [h]; exact fun e => h180 e.symm
    · rw [h]; exact fun e => h15 e.symm
  refine ⟨st1, ?_, fun h => hsame h⟩
  rw [hm, my_malloc_initialized H fuel st1 n hinv.init]
  exact scan_miss H n l fuel st1 Link.head _ hinv.free hno hlen

/-- C9 on a fresh allocator with a 16-byte header, request 271. -/
theorem my_malloc_other_size_null_witness :
    (∃ st', my_malloc 16 (HEAP_SIZE + 1) fresh 271 = some (none, st') ∧
      (fresh.initialized = true → st' = fresh)) ∧
    SMALL_SIZE % 256 = 15 ∧ LARGE_SIZE % 256 = 180 :=
  my_malloc_other_size_null 16 fresh [] 271 (HEAP_SIZE + 1) Reach.start (by decide)
    (by decide) (by decide)

/-- C6 on a fresh allocator with a 16-byte header and fuel `HEAP_SIZE + 1`. -/
theorem init_heap_free_list_reversed_witness :
    (∃ st', init_heap 16 (HEAP_SIZE + 1) fresh = some st' ∧
      free_blocks st' ((carve 16 (HEAP_SIZE + 1) 0).map (fun c => (c.1 : Int))).reverse ∧
      st'.free_list = (carve 16 (HEAP_SIZE + 1) 0).getLast?.map (fun c => (c.1 : Int)) ∧
      (carve 16 (HEAP_SIZE + 1) 0 ≠ [] →
        ((carve 16 (HEAP_SIZE + 1) 0).map (fun c => (c.1 : Int))).reverse.getLast? = some 0 ∧
        st'.next 0 = none)) ∧
    (∀ n, ∃ st'', my_malloc 16 (HEAP_SIZE + 1) fresh n
      = some (((carve 16 (HEAP_SIZE + 1) 0).reverse.find? (fun c => decide (c.2 = n))).map
          (fun c => (c.1 : Int) + (16 : Nat)), st'')) ∧
    (∃ s, my_malloc 16 (HEAP_SIZE + 1) fresh 15 = some (some 4060, s)) ∧
    (∃ s, my_malloc 16 (HEAP_SIZE + 1) fresh 180 = some (some 3740, s)) :=
  init_heap_free_list_reversed 16 (HEAP_SIZE + 1) (by decide) fresh rfl

/-! ## Exhausting a size class -/

theorem malloc_repeat_add (H fuel s : Nat) :
    ∀ (j k : Nat) (st : State),
      malloc_repeat H fuel (j + k) st s =
        match malloc_repeat H fuel j st s with
        | none => none
        | some (rs, st1) =>
          match malloc_repeat H fuel k st1 s with
          | none => none
          | some (rs', st2) => some (rs ++ rs', st2)
  | 0, k, st => by
    simp only [Nat.zero_add, malloc_repeat]
    cases malloc_repeat H fuel k st s with
    | none => rfl
    | some r => rfl
  | j + 1, k, st => by
    have e : j + 1 + k = (j + k) + 1 := by omega
    rw [e]
    simp only [malloc_repeat]
    cases my_malloc H fuel st s with
    | none => rfl
    | some r =>
      obtain ⟨r1, st1⟩ := r
      simp only []
      rw [malloc_repeat_add H fuel s j k st1]
      cases malloc_repeat H fuel j st1 s with
      | none => rfl
      | some q =>
        obtain ⟨rs, st2⟩ := q
        simp only []
        cases malloc_repeat H fuel k st2 s with
        | none => rfl
        | some q' => rfl

/-- Calling `my_malloc s` as many times as there are free blocks of size `s` returns
their payloads in free-list order and leaves the other free blocks in their order. -/
theorem malloc_repeat_drain (H fuel s : Nat) :
    ∀ (k : Nat) (st : State) (l : List Int), st.initialized = true → free_blocks st l →
      l.length < fuel → (l.filter (fun b => decide (st.size b = s))).length = k →
      ∃ st', malloc_repeat H fuel k st s
          = some ((l.filter (fun b => decide (st.size b = s))).map
              (fun b => some (b + (H : Int))), st') ∧
        st'.initialized = true ∧ st'.size = st.size ∧
        free_blocks st' (l.filter (fun b => !decide (st.size b = s)))
  | 0, st, l, hi, hl, _, hk => by
    have hnil : l.filter (fun b => decide (st.size b = s)) = [] :=
      List.length_eq_zero.1 hk
    refine ⟨st, by simp [malloc_repeat, hnil], hi, rfl, ?_⟩
    have hall : ∀ a ∈ l, (!decide (st.size a = s)) = true := by
      intro a ha
      have := List.filter_eq_nil_iff.1 hnil a ha
      simpa using this
    rw [List.filter_eq_self.2 hall]
    exact hl
  | k + 1, st, l, hi, hl, hf, hk => by
    rcases my_malloc_cases H st l s fuel hi hl hf with
      ⟨hno, _⟩ | ⟨pre, b, post, rfl, hpre, hb, e⟩
    · have hnil : l.filter (fun b => decide (st.size b = s)) = [] :=
        List.filter_eq_nil_iff.2 (fun a ha => by simpa using hno a ha)
      rw [hnil] at hk
      simp at hk
    · have hpre1 : pre.filter (fun b => decide (st.size b = s)) = [] :=
        List.filter_eq_nil_iff.2 (fun a ha => by simpa using hpre a ha)
      have hpre2 : pre.filter (fun b => !decide (st.size b = s)) = pre :=
        List.filter_eq_self.2 (fun a ha => by simpa using hpre a ha)
      have hf1 : (pre ++ b :: post).filter (fun b => decide (st.size b = s))
          = b :: post.filter (fun b => decide (st.size b = s)) := by
        simp [List.filter_append, hpre1, List.filter_cons, hb]
      have hf2 : (pre ++ b :: post).filter (fun b => !decide (st.size b = s))
          = pre ++ post.filter (fun b => !decide (st.size b = s)) := by
        simp [List.filter_append, hpre2, List.filter_cons, hb]
      have hf3 : (pre ++ post).filter (fun b => decide (st.size b = s))
          = post.filter (fun b => decide (st.size b = s)) := by
        simp [List.filter_append, hpre1]
      have hf4 : (pre ++ post).filter (fun b => !decide (st.size b = s))
          = pre ++ post.filter (fun b => !decide (st.size b = s)) := by
        simp [List.filter_append, hpre2]
      have hsz : (store_link st (last_link Link.head pre) (st.next b)).size = st.size :=
        store_link_size _ _ _
      obtain ⟨st', e', hi', hs', hl'⟩ := malloc_repeat_drain H fuel s k
        (store_link st (last_link Link.head pre) (st.next b)) (pre ++ post)
        (by rw [store_link_initialized]; exact hi)
        (unlink_free_blocks st pre post b hl)
        (by simp at hf ⊢; omega)
        (by
          rw [hsz, hf3]
          rw [hf1] at hk
          simpa using hk)
      rw [hsz] at e' hs' hl'
      rw [hf3] at e'
      rw [hf4] at hl'
      refine ⟨st', ?_, hi', hs', ?_⟩
      · simp only [malloc_repeat, e, e', hf1, List.map_cons]
      · rw [hf2]; exact hl'

theorem filter_offsets (size : Int → Nat) (s : Nat) (p : Bool → Bool) :
    ∀ (L : List (Nat × Nat)), (∀ c ∈ L, size c.1 = c.2) →
      (L.map (fun c => (c.1 : Int))).filter (fun b => p (decide (size b = s)))
        = (L.filter (fun c => p (decide (c.2 = s)))).map (fun c => (c.1 : Int))
  | [], _ => rfl
  | c :: L, h => by
    have hc : size c.1 = c.2 := h c (List.mem_cons_self _ _)
    have ih := filter_offsets size s p L (fun d hd => h d (List.mem_cons_of_mem _ hd))
    simp only [List.map_cons, List.filter_cons, hc, ih]
    split <;> rfl

theorem class_payloads_length (H s : Nat) :
    (class_payloads H s).length = class_count H s := by
  simp [class_payloads, class_count, List.filter_reverse]

/-- The payloads of one class are distinct, pairwise disjoint and inside the arena. -/
theorem class_payloads_spec (H s : Nat) :
    (class_payloads H s).Nodup ∧
    (class_payloads H s).Pairwise (fun p q : Int => p + s ≤ q ∨ q + s ≤ p) ∧
    (∀ p ∈ class_payloads H s, (H : Int) ≤ p ∧ p + s ≤ HEAP_SIZE) := by
  have hsorted : ((carved H).reverse.filter (fun c => decide (c.2 = s))).Pairwise
      (fun a b => b.1 + H + b.2 ≤ a.1 ∧ b.1 < a.1) :=
    (List.pairwise_reverse.2 (carve_sorted H (HEAP_SIZE + 1) 0)).filter _
  refine ⟨?_, ?_, ?_⟩
  · unfold class_payloads
    rw [List.Nodup, List.pairwise_map]
    refine hsorted.imp ?_
    intro a b hab heq
    have := hab.2
    omega
  · unfold class_payloads
    rw [List.pairwise_map]
    refine List.Pairwise.imp_of_mem ?_ hsorted
    intro a b _ hb hab
    have hb2 : b.2 = s := by simpa using (List.mem_filter.1 hb).2
    have := hab.1
    right
    omega
  · intro p hp
    obtain ⟨c, hc, rfl⟩ := List.mem_map.1 hp
    obtain ⟨hc1, hc2⟩ := List.mem_filter.1 hc
    have hc2 : c.2 = s := by simpa using hc2
    have hb := (carve_bound H _ _ c (List.mem_reverse.1 hc1)).2
    simp only [HEAP_SIZE] at hb ⊢
    constructor
    · omega
    · push_cast
      omega

/-- The class counts of the carved partition. -/
theorem class_count_formula (H : Nat) :
    class_count H 180 = HEAP_SIZE / (H + 180) ∧
    class_count H 15 = HEAP_SIZE % (H + 180) / (H + 15) := by
  have e : carved H = partition_ref H := carve_eq_partition_ref H (HEAP_SIZE + 1) (by omega)
  constructor
  · simp [class_count, e, partition_ref, List.filter_map, LARGE_SIZE, SMALL_SIZE,
      Function.comp_def]
  · simp [class_count, e, partition_ref, List.filter_map, LARGE_SIZE, SMALL_SIZE,
      Function.comp_def]

/-- From a fresh allocator, `class_count H s` calls of `my_malloc s` return the payloads
of that class, last carved first, and leave the blocks of the other sizes on the free
list. -/
theorem drain_fresh (H fuel s : Nat) (hf : HEAP_SIZE < fuel) :
    ∃ st0 st', Inv H st0 [] (carved_offsets H).reverse ∧
      (∀ n, my_malloc H fuel fresh n = my_malloc H fuel st0 n) ∧
      (∀ k, malloc_repeat H fuel (k + 1) fresh s = malloc_repeat H fuel (k + 1) st0 s) ∧
      malloc_repeat H fuel (class_count H s) st0 s
        = some ((class_payloads H s).map some, st') ∧
      st'.initialized = true ∧ st'.size = st0.size ∧
      free_blocks st'
        ((carved_offsets H).reverse.filter (fun b => !decide (st0.size b = s))) := by
  obtain ⟨st0, _, hinv, hm⟩ := my_malloc_fresh H fuel hf
  have hlen := inv_length hinv
  have hrev : (carved_offsets H).reverse = ((carved H).reverse).map (fun c => (c.1 : Int)) := by
    simp [carved_offsets, List.map_reverse]
  have hfilt : (carved_offsets H).reverse.filter (fun b => decide (st0.size b = s))
      = ((carved H).reverse.filter (fun c => decide (c.2 = s))).map (fun c => (c.1 : Int)) := by
    rw [hrev]
    exact filter_offsets st0.size s id _ (fun c hc => hinv.sizes c (List.mem_reverse.1 hc))
  obtain ⟨st', e, hi, hs, hl⟩ := malloc_repeat_drain H fuel s (class_count H s) st0
    (carved_offsets H).reverse hinv.init hinv.free (by omega)
    (by rw [hfilt]; simp [class_count, List.filter_reverse])
  refine ⟨st0, st', hinv, hm, ?_, ?_, hi, hs, hl⟩
  · intro k
    simp only [malloc_repeat, hm s]
  · rw [e, hfilt]
    simp [class_payloads, List.map_map, Function.comp_def]

/-- After the blocks of size `s` are taken, `my_malloc s` returns NULL and `my_malloc t`
for a class `t` that has a block still succeeds. -/
theorem drained_state (H fuel s : Nat) (hf : HEAP_SIZE < fuel) (st0 st' : State)
    (hinv : Inv H st0 [] (carved_offsets H).reverse) (hi : st'.initialized = true)
    (hs : st'.size = st0.size)
    (hl : free_blocks st'
      ((carved_offsets H).reverse.filter (fun b => !decide (st0.size b = s)))) :
    my_malloc H fuel st' s = some (none, st') ∧
    ∀ t, t ≠ s → 0 < class_count H t → ∃ p st2, my_malloc H fuel st' t = some (some p, st2) := by
  have hlen : ((carved_offsets H).reverse.filter
      (fun b => !decide (st0.size b = s))).length < fuel := by
    have h1 := List.length_filter_le (fun b => !decide (st0.size b = s))
      (carved_offsets H).reverse
    have h2 := inv_length hinv
    omega
  constructor
  · rcases my_malloc_cases H st' _ s fuel hi hl hlen with ⟨_, e⟩ | ⟨pre, b, post, hsplit, _, hb, _⟩
    · exact e
    · have hmem : b ∈ (carved_offsets H).reverse.filter (fun b => !decide (st0.size b = s)) := by
        rw [hsplit]; simp
      have := (List.mem_filter.1 hmem).2
      rw [hs] at hb
      simp [hb] at this
  · intro t hts ht
    obtain ⟨c, hc⟩ := List.exists_mem_of_length_pos ht
    obtain ⟨hc1, hc2⟩ := List.mem_filter.1 hc
    have hc2 : c.2 = t := by simpa using hc2
    have hsz : st0.size c.1 = t := by rw [hinv.sizes c hc1, hc2]
    have hmem : (c.1 : Int) ∈
        (carved_offsets H).reverse.filter (fun b => !decide (st0.size b = s)) := by
      refine List.mem_filter.2 ⟨?_, by simp [hsz, hts]⟩
      exact List.mem_reverse.2 (List.mem_map.2 ⟨c, hc1, rfl⟩)
    rcases my_malloc_cases H st' _ t fuel hi hl hlen with ⟨hno, _⟩ | ⟨pre, b, post, _, _, _, e⟩
    · exact absurd (by rw [hs]; exact hsz) (hno _ hmem)
    · exact ⟨_, _, e⟩

/-- C7. From a fresh allocator, for every size `s` (in particular 15 and 180), with
`N = class_count H s` the number of carved blocks of that size: `N + 1` consecutive calls
`my_malloc s` all return, the first `N` return the payloads of the class (non-NULL,
pairwise distinct, with pairwise disjoint byte ranges `[p, p + s)` inside the arena) and
call `N + 1` returns NULL.  The counts are `HEAP_SIZE / (H + 180)` and
`HEAP_SIZE % (H + 180) / (H + 15)`: 20 and 5 when `H = 16`. -/
theorem malloc_exhausts_class (H fuel s : Nat) (hf : HEAP_SIZE < fuel) :
    (∃ st', malloc_repeat H fuel (class_count H s + 1) fresh s
      = some ((class_payloads H s).map some ++ [none], st')) ∧
    (class_payloads H s).length = class_count H s ∧
    (class_payloads H s).Nodup ∧
    (class_payloads H s).Pairwise (fun p q : Int => p + s ≤ q ∨ q + s ≤ p) ∧
    (∀ p ∈ class_payloads H s, (H : Int) ≤ p ∧ p + s ≤ HEAP_SIZE) ∧
    class_count H 180 = HEAP_SIZE / (H + 180) ∧
    class_count H 15 = HEAP_SIZE % (H + 180) / (H + 15) ∧
    class_count 16 180 = 20 ∧ class_count 16 15 = 5 := by
  obtain ⟨h1, h2, h3⟩ := class_payloads_spec H s
  refine ⟨?_, class_payloads_length H s, h1, h2, h3, (class_count_formula H).1,
    (class_count_formula H).2, by decide, by decide⟩
  obtain ⟨st0, st', hinv, _, hrep, e, hi, hs, hl⟩ := drain_fresh H fuel s hf
  have hnull := (drained_state H fuel s hf st0 st' hinv hi hs hl).1
  refine ⟨st', ?_⟩
  rw [hrep, malloc_repeat_add H fuel s (class_count H s) 1 st0, e]
  simp [malloc_repeat, hnull]

/-- C7 at a 16-byte header, class 15, fuel `HEAP_SIZE + 1`. -/
theorem malloc_exhausts_class_witness :
    (∃ st', malloc_repeat 16 (HEAP_SIZE + 1) (class_count 16 15 + 1) fresh 15
      = some ((class_payloads 16 15).map some ++ [none], st')) ∧
    (class_payloads 16 15).length = class_count 16 15 ∧
    (class_payloads 16 15).Nodup ∧
    (class_payloads 16 15).Pairwise (fun p q : Int => p + (15 : Nat) ≤ q ∨ q + (15 : Nat) ≤ p) ∧
    (∀ p ∈ class_payloads 16 15, ((16 : Nat) : Int) ≤ p ∧ p + (15 : Nat) ≤ HEAP_SIZE) ∧
    class_count 16 180 = HEAP_SIZE / (16 + 180) ∧
    class_count 16 15 = HEAP_SIZE % (16 + 180) / (16 + 15) ∧
    class_count 16 180 = 20 ∧ class_count 16 15 = 5 :=
  malloc_exhausts_class 16 (HEAP_SIZE + 1) 15 (by decide)

/-- C8. From a fresh allocator whose partition has blocks of both classes: once
`my_malloc 180` has been called until every LARGE block is allocated (all these calls
return non-NULL), the next `my_malloc 180` returns NULL while `my_malloc 15` returns a
non-NULL reference; and symmetrically with the two classes exchanged. -/
theorem class_exhaustion_independent (H fuel : Nat) (hf : HEAP_SIZE < fuel)
    (h15 : 0 < class_count H 15) (h180 : 0 < class_count H 180) :
    (∃ rs st1, malloc_repeat H fuel (class_count H 180) fresh 180 = some (rs, st1) ∧
      rs.length = class_count H 180 ∧ (∀ r ∈ rs, r ≠ none) ∧
      my_malloc H fuel st1 180 = some (none, st1) ∧
      ∃ p st2, my_malloc H fuel st1 15 = some (some p, st2)) ∧
    (∃ rs st1, malloc_repeat H fuel (class_count H 15) fresh 15 = some (rs, st1) ∧
      rs.length = class_count H 15 ∧ (∀ r ∈ rs, r ≠ none) ∧
      my_malloc H fuel st1 15 = some (none, st1) ∧
      ∃ p st2, my_malloc H fuel st1 180 = some (some p, st2)) := by
  constructor
  · obtain ⟨st0, st', hinv, _, hrep, e, hi, hs, hl⟩ := drain_fresh H fuel 180 hf
    obtain ⟨hnull, hother⟩ := drained_state H fuel 180 hf st0 st' hinv hi hs hl
    obtain ⟨k, hk⟩ : ∃ k, class_count H 180 = k + 1 := ⟨class_count H 180 - 1, by omega⟩
    refine ⟨(class_payloads H 180).map some, st', ?_, ?_, ?_, hnull,
      hother 15 (by decide) h15⟩
    · rw [hk, hrep, ← hk]; exact e
    · simp [class_payloads_length]
    · intro r hr; obtain ⟨p, _, rfl⟩ := List.mem_map.1 hr; simp
  · obtain ⟨st0, st', hinv, _, hrep, e, hi, hs, hl⟩ := drain_fresh H fuel 15 hf
    obtain ⟨hnull, hother⟩ := drained_state H fuel 15 hf st0 st' hinv hi hs hl
    obtain ⟨k, hk⟩ : ∃ k, class_count H 15 = k + 1 := ⟨class_count H 15 - 1, by omega⟩
    refine ⟨(class_payloads H 15).map some, st', ?_, ?_, ?_, hnull,
      hother 180 (by decide) h180⟩
    · rw [hk, hrep, ← hk]; exact e
    · simp [class_payloads_length]
    · intro r hr; obtain ⟨p, _, rfl⟩ := List.mem_map.1 hr; simp

/-- C8 at a 16-byte header with fuel `HEAP_SIZE + 1`. -/
theorem class_exhaustion_independent_witness :
    (∃ rs st1, malloc_repeat 16 (HEAP_SIZE + 1) (class_count 16 180) fresh 180
        = some (rs, st1) ∧
      rs.length = class_count 16 180 ∧ (∀ r ∈ rs, r ≠ none) ∧
      my_malloc 16 (HEAP_SIZE + 1) st1 180 = some (none, st1) ∧
      ∃ p st2, my_malloc 16 (HEAP_SIZE + 1) st1 15 = some (some p, st2)) ∧
    (∃ rs st1, malloc_repeat 16 (HEAP_SIZE + 1) (class_count 16 15) fresh 15
        = some (rs, st1) ∧
      rs.length = class_count 16 15 ∧ (∀ r ∈ rs, r ≠ none) ∧
      my_malloc 16 (HEAP_SIZE + 1) st1 15 = some (none, st1) ∧
      ∃ p st2, my_malloc 16 (HEAP_SIZE + 1) st1 180 = some (some p, st2)) :=
  class_exhaustion_independent 16 (HEAP_SIZE + 1) (by decide) (by decide) (by decide)

/-! ## The end-to-end scenario -/

/-- Under the invariant, a class that has carved blocks none of which is outstanding
has a free block. -/
theorem inv_has_free {H : Nat} {st : State} {out : List (Int × Nat)} {l : List Int}
    (hinv : Inv H st out l) (s : Nat) (hcount : 0 < class_count H s)
    (hout : ∀ r ∈ out, r.2 ≠ s) : ∃ b ∈ l, st.size b = s := by
  obtain ⟨c, hc⟩ := List.exists_mem_of_length_pos hcount
  obtain ⟨hc1, hc2⟩ := List.mem_filter.1 hc
  have hc2 : c.2 = s := by simpa using hc2
  have hsz : st.size c.1 = s := by rw [hinv.sizes c hc1, hc2]
  have hmem : (c.1 : Int) ∈ l ++ out_headers H out :=
    (hinv.perm.mem_iff).2 (List.mem_map.2 ⟨c, hc1, rfl⟩)
  rcases List.mem_append.1 hmem with h | h
  · exact ⟨_, h, hsz⟩
  · obtain ⟨r, hr, hrc⟩ := List.mem_map.1 h
    have := hinv.out_size r hr
    rw [hrc, hsz] at this
    exact absurd this.symm (hout r hr)

/-- Under correct use, a request for a class that has carved blocks none of which is
outstanding succeeds. -/
theorem reach_malloc_hit (H fuel s : Nat) (st : State) (out : List (Int × Nat))
    (hr : Reach H st out) (hf : HEAP_SIZE < fuel) (hcount : 0 < class_count H s)
    (hout : ∀ r ∈ out, r.2 ≠ s) :
    ∃ p st', my_malloc H fuel st s = some (some p, st') := by
  obtain ⟨st1, l, hinv, _, hm, hlen⟩ := reach_malloc H st out s fuel hr hf
  obtain ⟨b, hb, hbs⟩ := inv_has_free hinv s hcount hout
  rcases my_malloc_cases H st1 l s fuel hinv.init hinv.free hlen with
    ⟨hno, _⟩ | ⟨pre, b', post, _, _, _, e⟩
  · exact absurd hbs (hno b hb)
  · exact ⟨_, _, by rw [hm]; exact e⟩

/-- An outstanding reference comes from an initialised state that satisfies the
invariant. -/
theorem reach_inv_of_outstanding {H : Nat} {st : State} {out : List (Int × Nat)}
    (hr : Reach H st out) (hne : out ≠ []) : ∃ l, Inv H st out l := by
  rcases reach_inv hr with ⟨_, h⟩ | h
  · exact absurd h hne
  · exact h

/-- C11. On a fresh allocator whose partition has blocks of both classes (as with a
16-byte header): `a = my_malloc(15)` and `b = my_malloc(180)` are both non-NULL and
differ, so `main` returns 0; after `my_free(a)` then `my_free(b)` the next
`my_malloc(15)` returns `a` again. -/
theorem end_to_end (H fuel : Nat) (hf : HEAP_SIZE < fuel) (h15 : 0 < class_count H 15)
    (h180 : 0 < class_count H 180) :
    ∃ a b st1 st2 st5, my_malloc H fuel fresh 15 = some (some a, st1) ∧
      my_malloc H fuel st1 180 = some (some b, st2) ∧ a ≠ b ∧
      main H fuel = some 0 ∧
      my_malloc H fuel (my_free H (my_free H st2 (some a)) (some b)) 15
        = some (some a, st5) := by
  obtain ⟨a, st1, e1⟩ := reach_malloc_hit H fuel 15 fresh [] Reach.start hf h15 (by simp)
  have r1 : Reach H st1 [(a, 15)] := Reach.malloc_some Reach.start e1
  obtain ⟨b, st2, e2⟩ := reach_malloc_hit H fuel 180 st1 [(a, 15)] r1 hf h180 (by simp)
  have r2 : Reach H st2 [(b, 180), (a, 15)] := Reach.malloc_some r1 e2
  obtain ⟨l, hinv⟩ := reach_inv_of_outstanding r2 (by simp)
  have hsa : st2.size (a - H) = 15 := hinv.out_size (a, 15) (by simp)
  have hsb : st2.size (b - H) = 180 := hinv.out_size (b, 180) (by simp)
  have hab : a ≠ b := by
    rintro rfl
    rw [hsa] at hsb
    exact absurd hsb (by decide)
  have i3 := inv_free hinv (show (a, 15) ∈ [(b, 180), (a, 15)] by simp)
  have hd3 : drop_ref (a, 15) [(b, 180), (a, 15)] = [(b, 180)] := by
    simp [drop_ref]
  rw [hd3] at i3
  have i4 := inv_free i3 (show (b, 180) ∈ [(b, 180)] by simp)
  have hch : chain (my_free H (my_free H st2 (some a)) (some b)).next
      (my_free H (my_free H st2 (some a)) (some b)).free_list
      ([b - (H : Int)] ++ (a - (H : Int)) :: l) := i4.free
  have hlen := inv_length i4
  refine ⟨a, b, st1, st2,
    store_link (my_free H (my_free H st2 (some a)) (some b))
      (last_link Link.head [b - (H : Int)])
      ((my_free H (my_free H st2 (some a)) (some b)).next (a - H)),
    e1, e2, hab, ?_, ?_⟩
  · simp [main, e1, e2]
  · rw [my_malloc_initialized H fuel _ 15 i4.init,
      scan_hit H 15 (a - H) l [b - (H : Int)] fuel _ Link.head _ hch
        (by
          intro x hx
          have hx' : x = b - (H : Int) := by simpa using hx
          rw [hx']
          show st2.size (b - H) ≠ 15
          rw [hsb]; decide)
        hsa (by simp at hlen ⊢; omega)]
    simp

/-- C11 with a 16-byte header and fuel `HEAP_SIZE + 1`. -/
theorem end_to_end_witness :
    ∃ a b st1 st2 st5, my_malloc 16 (HEAP_SIZE + 1) fresh 15 = some (some a, st1) ∧
      my_malloc 16 (HEAP_SIZE + 1) st1 180 = some (some b, st2) ∧ a ≠ b ∧
      main 16 (HEAP_SIZE + 1) = some 0 ∧
      my_malloc 16 (HEAP_SIZE + 1) (my_free 16 (my_free 16 st2 (some a)) (some b)) 15
        = some (some a, st5) :=
  end_to_end 16 (HEAP_SIZE + 1) (by decide) (by decide) (by decide)

/-! ## Release and re-allocation cycles -/

/-- Under correct use, `my_malloc` with fuel above `HEAP_SIZE` returns. -/
theorem reach_malloc_returns (H fuel n : Nat) (st : State) (out : List (Int × Nat))
    (hr : Reach H st out) (hf : HEAP_SIZE < fuel) :
    ∃ r st', my_malloc H fuel st n = some (r, st') := by
  obtain ⟨st1, l, hinv, _, hm, hlen⟩ := reach_malloc H st out n fuel hr hf
  rcases my_malloc_cases H st1 l n fuel hinv.init hinv.free hlen with
    ⟨_, e⟩ | ⟨pre, b, post, _, _, _, e⟩
  · exact ⟨_, _, by rw [hm]; exact e⟩
  · exact ⟨_, _, by rw [hm]; exact e⟩

/-- With nothing outstanding, an allocation followed by the release of its result
leaves nothing outstanding. -/
theorem reach_malloc_free (H fuel s : Nat) (st : State) (hr : Reach H st [])
    (hf : HEAP_SIZE < fuel) :
    ∃ r st1, my_malloc H fuel st s = some (r, st1) ∧ Reach H (my_free H st1 r) [] := by
  obtain ⟨r, st1, e⟩ := reach_malloc_returns H fuel s st [] hr hf
  refine ⟨r, st1, e, ?_⟩
  cases r with
  | none => exact Reach.free_null (Reach.malloc_null hr e)
  | some p =>
    have h := Reach.free (Reach.malloc_some hr e) (show (p, s) ∈ [(p, s)] by simp)
    simpa [drop_ref] using h

/-- With nothing outstanding in an initialised state, the free blocks of size `s` are as
many as the carved ones; that many calls of `my_malloc s` succeed and the next returns
NULL. -/
theorem drain_inv (H fuel s : Nat) (hf : HEAP_SIZE < fuel) (st : State) (l : List Int)
    (hinv : Inv H st [] l) :
    ∃ (rs : List Int) (st' : State), malloc_repeat H fuel (class_count H s + 1) st s
        = some (rs.map some ++ [none], st') ∧ rs.length = class_count H s := by
  have hlen := inv_length hinv
  have hperm : l.Perm (carved_offsets H) := by simpa [out_headers] using hinv.perm
  have hcount : (l.filter (fun b => decide (st.size b = s))).length = class_count H s := by
    rw [(hperm.filter _).length_eq]
    have := filter_offsets st.size s id (carved H) hinv.sizes
    simp only [id] at this
    rw [carved_offsets, this]
    simp [class_count]
  obtain ⟨st', e, hi, hs, hl⟩ := malloc_repeat_drain H fuel s (class_count H s) st l
    hinv.init hinv.free (by omega) hcount
  have hnull : my_malloc H fuel st' s = some (none, st') := by
    rw [my_malloc_initialized H fuel st' s hi]
    refine scan_miss H s _ fuel st' Link.head _ hl ?_ ?_
    · intro b hb
      have := (List.mem_filter.1 hb).2
      rw [hs]
      simpa using this
    · have := List.length_filter_le (fun b => !decide (st.size b = s)) l
      omega
  refine ⟨(l.filter (fun b => decide (st.size b = s))).map (fun b => b + (H : Int)), st',
    ?_, by simpa using hcount⟩
  rw [malloc_repeat_add H fuel s (class_count H s) 1 st, e]
  simp [malloc_repeat, hnull, List.map_map, Function.comp_def]

/-- In a state reached by correct use with nothing outstanding, exactly
`class_count H s` consecutive calls of `my_malloc s` succeed before the first NULL. -/
theorem drain_reach (H fuel s : Nat) (hf : HEAP_SIZE < fuel) (st : State)
    (hr : Reach H st []) :
    ∃ (rs : List Int) (st' : State), malloc_repeat H fuel (class_count H s + 1) st s
        = some (rs.map some ++ [none], st') ∧ rs.length = class_count H s := by
  rcases reach_inv hr with ⟨rfl, _⟩ | ⟨l, hinv⟩
  · obtain ⟨st0, _, hinv, hm⟩ := my_malloc_fresh H fuel hf
    obtain ⟨rs, st', e, hlen⟩ := drain_inv H fuel s hf st0 _ hinv
    refine ⟨rs, st', ?_, hlen⟩
    rw [← e]
    simp only [malloc_repeat, hm s]
  · exact drain_inv H fuel s hf st l hinv

/-- C12. From a fresh allocator, for every size `s` (in particular 15 and 180), the
sequence `p = my_malloc(s); my_free(p); q = my_malloc(s); my_free(q)` runs to its end,
and after it exactly `class_count H s` consecutive calls `my_malloc(s)` return non-NULL
before the first NULL: the partition count of the class, 5 and 20 with a 16-byte
header. -/
theorem release_cycle_conserves (H fuel s : Nat) (hf : HEAP_SIZE < fuel) :
    (∃ (st4 : State) (rs : List Int) (st' : State), release_cycle H fuel s = some st4 ∧
      malloc_repeat H fuel (class_count H s + 1) st4 s = some (rs.map some ++ [none], st') ∧
      rs.length = class_count H s) ∧
    class_count 16 15 = 5 ∧ class_count 16 180 = 20 := by
  refine ⟨?_, by decide, by decide⟩
  obtain ⟨p, st1, e1, r2⟩ := reach_malloc_free H fuel s fresh Reach.start hf
  obtain ⟨q, st3, e3, r4⟩ := reach_malloc_free H fuel s _ r2 hf
  obtain ⟨rs, st', e, hlen⟩ := drain_reach H fuel s hf _ r4
  exact ⟨my_free H st3 q, rs, st', by simp [release_cycle, e1, e3], e, hlen⟩

/-- C12 with a 16-byte header, class 180, fuel `HEAP_SIZE + 1`. -/
theorem release_cycle_conserves_witness :
    (∃ (st4 : State) (rs : List Int) (st' : State),
      release_cycle 16 (HEAP_SIZE + 1) 180 = some st4 ∧
      malloc_repeat 16 (HEAP_SIZE + 1) (class_count 16 180 + 1) st4 180
        = some (rs.map some ++ [none], st') ∧
      rs.length = class_count 16 180) ∧
    class_count 16 15 = 5 ∧ class_count 16 180 = 20 :=
  release_cycle_conserves 16 (HEAP_SIZE + 1) 180 (by decide)

/-! ## Release of NULL, one-shot initialisation, double release -/

/-- C13. `my_free(NULL)` is a no-op in every state, initialised or not: the globals after
the call are the globals before it, so the free-list head, the flag, every header field
and every arena byte are unchanged. -/
theorem my_free_null_noop (H : Nat) (st : State) :
    my_free H st none = st ∧
    (my_free H st none).free_list = st.free_list ∧
    (my_free H st none).initialized = st.initialized ∧
    (my_free H st none).next = st.next ∧
    (my_free H st none).size = st.size ∧
    (my_free H st none).heap = st.heap :=
  ⟨rfl, rfl, rfl, rfl, rfl, rfl⟩

/-- C15. On a fresh allocator whose partition has a SMALL block (as with a 16-byte
header), after `a = my_malloc(15); my_free(a); my_free(a)` the free list is
self-referential: its head is the block of `a` and the `next` link of that block points
to the block itself.  `my_malloc(15)` then returns `a` and leaves the state as it is, so
the next `my_malloc(15)` returns the same reference `a` again. -/
theorem double_release_aliases (H fuel : Nat) (hf : HEAP_SIZE < fuel)
    (h15 : 0 < class_count H 15) :
    ∃ a st1, my_malloc H fuel fresh 15 = some (some a, st1) ∧
      (my_free H (my_free H st1 (some a)) (some a)).free_list = some (a - H) ∧
      (my_free H (my_free H st1 (some a)) (some a)).next (a - H) = some (a - H) ∧
      ∃ st4, my_malloc H fuel (my_free H (my_free H st1 (some a)) (some a)) 15
          = some (some a, st4) ∧
        st4 = my_free H (my_free H st1 (some a)) (some a) ∧
        my_malloc H fuel st4 15 = some (some a, st4) := by
  obtain ⟨a, st1, e1⟩ := reach_malloc_hit H fuel 15 fresh [] Reach.start hf h15 (by simp)
  have r1 : Reach H st1 [(a, 15)] := Reach.malloc_some Reach.start e1
  obtain ⟨l, hinv⟩ := reach_inv_of_outstanding r1 (by simp)
  have hsa : st1.size (a - H) = 15 := hinv.out_size (a, 15) (by simp)
  obtain ⟨f, rfl⟩ : ∃ f, fuel = f + 1 := ⟨fuel - 1, by simp only [HEAP_SIZE] at hf; omega⟩
  have hcall : my_malloc H (f + 1) (my_free H (my_free H st1 (some a)) (some a)) 15
      = some (some a, my_free H (my_free H st1 (some a)) (some a)) := by
    have hin : (my_free H (my_free H st1 (some a)) (some a)).initialized = true := hinv.init
    rw [my_malloc_initialized H (f + 1) _ 15 hin]
    have hsz : (my_free H (my_free H st1 (some a)) (some a)).size (a - H) = 15 := hsa
    have hfl : (my_free H (my_free H st1 (some a)) (some a)).free_list = some (a - H) := rfl
    have hnx : (my_free H (my_free H st1 (some a)) (some a)).next (a - H) = some (a - H) := by
      simp [my_free, push_head, upd_same]
    rw [hfl]
    simp only [scan, hsz, if_true, hnx, store_link]
    simp only [← hfl, sub_add_cancel]
  refine ⟨a, st1, e1, rfl, by simp [my_free, push_head, upd_same], _, hcall, rfl, hcall⟩

/-- C15 with a 16-byte header and fuel `HEAP_SIZE + 1`. -/
theorem double_release_aliases_witness :
    ∃ a st1, my_malloc 16 (HEAP_SIZE + 1) fresh 15 = some (some a, st1) ∧
      (my_free 16 (my_free 16 st1 (some a)) (some a)).free_list = some (a - (16 : Nat)) ∧
      (my_free 16 (my_free 16 st1 (some a)) (some a)).next (a - (16 : Nat))
        = some (a - (16 : Nat)) ∧
      ∃ st4, my_malloc 16 (HEAP_SIZE + 1) (my_free 16 (my_free 16 st1 (some a)) (some a)) 15
          = some (some a, st4) ∧
        st4 = my_free 16 (my_free 16 st1 (some a)) (some a) ∧
        my_malloc 16 (HEAP_SIZE + 1) st4 15 = some (some a, st4) :=
  double_release_aliases 16 (HEAP_SIZE + 1) (by decide) (by decide)

/-! ## The frame of an allocation -/

/-- On a finite free list, the blocks reached from the head are the blocks of the list. -/
theorem on_list_of_chain {next : Int → Ptr} {p : Ptr} {x : Int} (h : on_list next p x) :
    ∀ (l : List Int), chain next p l → x ∈ l := by
  induction h with
  | here b =>
    intro l hl
    cases l with
    | nil => rw [chain_nil] at hl; simp at hl
    | cons c l =>
      rw [chain_cons] at hl
      have : b = c := by simpa using hl.1
      simp [this]
  | after a y _ ih =>
    intro l hl
    cases l with
    | nil => rw [chain_nil] at hl; simp at hl
    | cons c l =>
      rw [chain_cons] at hl
      have : a = c := by simpa using hl.1
      subst this
      exact List.mem_cons_of_mem _ (ih l hl.2)

/-- Whatever the state, the loop of `init_heap` exits once the fuel covers one step per
`H + 15` bytes between the cursor and the end of the arena, plus the exit test. -/
theorem init_heap_loop_terminates (H : Nat) :
    ∀ (fuel ptr : Nat) (st : State), 0 < fuel → HEAP_SIZE < ptr + fuel * (H + 15) →
      ∃ st', init_heap_loop H fuel ptr st = some st'
  | 0, _, _, h, _ => by omega
  | fuel + 1, ptr, st, _, hf => by
    simp only [HEAP_SIZE] at hf
    have e1 : (fuel + 1) * (H + 15) = fuel * (H + 15) + (H + 15) := Nat.succ_mul _ _
    rw [init_heap_loop_succ]
    split_ifs with h1 h2
    · have hpos : 0 < fuel := by
        rcases Nat.eq_zero_or_pos fuel with h0 | h0
        · subst h0; omega
        · exact h0
      exact init_heap_loop_terminates H fuel _ _ hpos (by simp only [HEAP_SIZE]; omega)
    · have hpos : 0 < fuel := by
        rcases Nat.eq_zero_or_pos fuel with h0 | h0
        · subst h0; omega
        · exact h0
      exact init_heap_loop_terminates H fuel _ _ hpos (by simp only [HEAP_SIZE]; omega)
    · exact ⟨st, rfl⟩

/-- Each step of the loop of `init_heap` moves the cursor by at least `H + 15`. -/
theorem carve_step (H : Nat) :
    ∀ (fuel ptr : Nat), (carve H fuel ptr).Chain' (fun a b => a.1 + H + 15 ≤ b.1)
  | 0, _ => by simp [carve]
  | fuel + 1, ptr => by
    rw [carve_succ]
    split_ifs with h1 h2
    · refine List.chain'_cons'.2 ⟨fun c hc => ?_, carve_step H fuel _⟩
      have := carve_head H fuel _ c hc
      simp only []
      omega
    · refine List.chain'_cons'.2 ⟨fun c hc => ?_, carve_step H fuel _⟩
      have := carve_head H fuel _ c hc
      simp only []
      omega
    · exact List.chain'_nil

/-- A scan over a finite free list exits within one step per block plus the final test. -/
theorem scan_terminates (H n : Nat) (st : State) (l : List Int) (fuel : Nat)
    (hl : free_blocks st l) (hf : l.length < fuel) :
    ∃ r, scan H fuel st Link.head st.free_list n = some r := by
  by_cases hex : ∃ b ∈ l, st.size b = n
  · obtain ⟨pre, b, post, rfl, hpre, hb⟩ := first_match st.size n l hex
    exact ⟨_, scan_hit H n b post pre fuel st Link.head _ hl hpre hb (by simp at hf; omega)⟩
  · exact ⟨_, scan_miss H n l fuel st Link.head _ hl
      (fun b hb hbn => hex ⟨b, hb, hbn⟩) hf⟩

/-- C19. For every header size the carving loop of `init_heap` terminates, from any
state, within `HEAP_SIZE / (H + 15)` iterations and the exit test: the cursor moves by at
least `H + 15` per iteration and every carved block ends inside the arena.  In every
state reachable by correct use the free list is a finite sequence without repetition,
ending in NULL, of at most as many blocks as were carved; the scan of `my_malloc` exits
within one step per free block and the final test; and `my_malloc` as a whole returns. -/
theorem loops_terminate (H : Nat) :
    (∀ (fuel : Nat) (st : State), HEAP_SIZE / (H + 15) < fuel →
      ∃ st', init_heap H fuel st = some st') ∧
    (carved H).Chain' (fun a b => a.1 + H + 15 ≤ b.1) ∧
    (∀ c ∈ carved H, c.1 + H + 15 ≤ HEAP_SIZE) ∧
    (∀ (st : State) (out : List (Int × Nat)) (n : Nat), Reach H st out →
      ∃ l, free_blocks st l ∧ l.Nodup ∧ l.length ≤ (carved H).length ∧
        ∀ fuel, l.length < fuel → ∃ r, scan H fuel st Link.head st.free_list n = some r) ∧
    (∀ (st : State) (out : List (Int × Nat)) (n fuel : Nat), Reach H st out →
      HEAP_SIZE < fuel → ∃ r, my_malloc H fuel st n = some r) := by
  refine ⟨?_, carve_step H _ 0, ?_, ?_, ?_⟩
  · intro fuel st hf
    have hB : 0 < H + 15 := by omega
    have h1 : HEAP_SIZE < fuel * (H + 15) := (Nat.div_lt_iff_lt_mul hB).1 hf
    exact init_heap_loop_terminates H fuel 0 st (Nat.lt_of_le_of_lt (Nat.zero_le _) hf)
      (by simpa using h1)
  · intro c hc
    have hb := carve_bound H _ _ c hc
    rcases hb.1 with h | h <;> omega
  · intro st out n hr
    have key : ∃ l, free_blocks st l ∧ l.length ≤ (carved H).length := by
      rcases reach_inv hr with ⟨rfl, _⟩ | ⟨l, hinv⟩
      · exact ⟨[], rfl, by simp⟩
      · refine ⟨l, hinv.free, ?_⟩
        have h1 := hinv.perm.length_eq
        simp only [List.length_append, carved_offsets, List.length_map] at h1
        omega
    obtain ⟨l, hl, hlen⟩ := key
    exact ⟨l, hl, chain_nodup l _ hl, hlen,
      fun fuel hf => scan_terminates H n st l fuel hl hf⟩
  · intro st out n fuel hr hf
    obtain ⟨r, st', e⟩ := reach_malloc_returns H fuel n st out hr hf
    exact ⟨_, e⟩

/-- C19 with a 16-byte header: `init_heap` from the fresh state with 133 units of fuel,
and the scan of the 25-block free list it builds with 26. -/
theorem loops_terminate_witness :
    (∃ st', init_heap 16 133 fresh = some st') ∧
    (∃ r, scan 16 26 ready16 Link.head ready16.free_list 180 = some r) ∧
    (∃ r, my_malloc 16 (HEAP_SIZE + 1) fresh 15 = some r) :=
  ⟨(loops_terminate 16).1 133 fresh (by decide),
    by
      obtain ⟨l, hl, _, hlen, hscan⟩ := (loops_terminate 16).2.2.2.1 ready16 [] 180
        (Reach.malloc_null Reach.start
          (show my_malloc 16 (HEAP_SIZE + 1) fresh 271 = some (none, ready16) from rfl))
      exact hscan 26 (by
        have h25 : (carved 16).length = 25 := by decide
        omega),
    (loops_terminate 16).2.2.2.2 fresh [] 15 (HEAP_SIZE + 1) Reach.start (by decide)⟩

/-! ## Block conservation -/

theorem filter_out_headers (H s : Nat) (size : Int → Nat) :
    ∀ (out : List (Int × Nat)), (∀ r ∈ out, size (r.1 - H) = r.2) →
      ((out_headers H out).filter (fun b => decide (size b = s))).length
        = (out.filter (fun r => decide (r.2 = s))).length
  | [], _ => rfl
  | r :: out, h => by
    have hr : size (r.1 - H) = r.2 := h r (List.mem_cons_self _ _)
    have ih := filter_out_headers H s size out (fun x hx => h x (List.mem_cons_of_mem _ hx))
    simp only [out_headers, List.map_cons, List.filter_cons, hr] at ih ⊢
    split <;> simp [ih]

/-- C20, as amended. In every initialised state reachable from a fresh allocator by
`my_malloc` calls and releases of outstanding references: the free list is a finite
sequence ending in NULL with no block twice; every free block is a carved block with its
carve-time size field; no block is both free and outstanding or outstanding twice; the
free blocks and the blocks of the outstanding references are together exactly the carved
blocks; and for every size `s` the number of free blocks of size `s` plus the number of
outstanding references requested with size `s` is the carved count of that size. -/
theorem block_conservation (H : Nat) (st : State) (out : List (Int × Nat))
    (hr : Reach H st out) (hinit : st.initialized = true) :
    ∃ l, free_blocks st l ∧ l.Nodup ∧
      (∀ b ∈ l, ∃ c ∈ carved H, (c.1 : Int) = b ∧ st.size b = c.2) ∧
      (l ++ out_headers H out).Nodup ∧
      (∀ b ∈ l, b ∉ out_headers H out) ∧
      (l ++ out_headers H out).Perm (carved_offsets H) ∧
      (∀ s, (l.filter (fun b => decide (st.size b = s))).length
          + (out.filter (fun r => decide (r.2 = s))).length = class_count H s) := by
  rcases reach_inv hr with ⟨rfl, _⟩ | ⟨l, hinv⟩
  · simp [fresh] at hinit
  · have hnd := inv_nodup hinv
    refine ⟨l, hinv.free, (List.nodup_append.1 hnd).1, ?_, hnd, ?_, hinv.perm, ?_⟩
    · intro b hb
      have hm : b ∈ carved_offsets H := (hinv.perm.mem_iff).1 (List.mem_append_left _ hb)
      obtain ⟨c, hc, rfl⟩ := List.mem_map.1 hm
      exact ⟨c, hc, rfl, hinv.sizes c hc⟩
    · intro b hb hb'
      exact (List.nodup_append.1 hnd).2.2 hb hb'
    · intro s
      have h1 := ((hinv.perm.filter (fun b => decide (st.size b = s))).length_eq)
      have h2 := filter_offsets st.size s id (carved H) hinv.sizes
      simp only [id] at h2
      rw [carved_offsets, h2, List.filter_append, List.length_append, List.length_map,
        filter_out_headers H s st.size out hinv.out_size] at h1
      exact h1

/-- C20 as amended, after the first `my_malloc(15)` of a fresh allocator with a 16-byte
header. -/
theorem block_conservation_witness :
    ∃ l, free_blocks after_first_small l ∧ l.Nodup ∧
      (∀ b ∈ l, ∃ c ∈ carved 16, (c.1 : Int) = b ∧ after_first_small.size b = c.2) ∧
      (l ++ out_headers 16 [(4060, 15)]).Nodup ∧
      (∀ b ∈ l, b ∉ out_headers 16 [(4060, 15)]) ∧
      (l ++ out_headers 16 [(4060, 15)]).Perm (carved_offsets 16) ∧
      (∀ s, (l.filter (fun b => decide (after_first_small.size b = s))).length
          + (([(4060, 15)] : List (Int × Nat)).filter (fun r => decide (r.2 = s))).length
          = class_count 16 s) :=
  block_conservation 16 after_first_small [(4060, 15)]
    (Reach.malloc_some Reach.start after_first_small_eq) (by decide)

/-- C20 as stated fails before the first allocation: the fresh state is reachable (by
the empty sequence of calls), its free list is empty and nothing is outstanding, while
the partition has 25 blocks, 5 of size 15 and 20 of size 180. -/
theorem block_conservation_counterexample :
    Reach 16 fresh [] ∧ free_blocks fresh [] ∧
    (carved_offsets 16).length = 25 ∧ class_count 16 15 = 5 ∧ class_count 16 180 = 20 ∧
    ¬ (([] : List Int) ++ out_headers 16 []).Perm (carved_offsets 16) ∧
    ((([] : List Int).filter (fun b => decide (fresh.size b = 15))).length
      + (([] : List (Int × Nat)).filter (fun r => decide (r.2 = 15))).length
      ≠ class_count 16 15) := by
  refine ⟨Reach.start, rfl, by decide, by decide, by decide, ?_, by decide⟩
  intro h
  have := h.length_eq
  have h25 : (carved_offsets 16).length = 25 := by decide
  rw [h25] at this
  simp [out_headers] at this

/-! ## What `init_heap` leaves in the arena -/

/-- Run on an empty free list with enough fuel, `init_heap` returns; the blocks of
`carve` are then exactly the blocks on the free list, last carved first, with their size
fields written, and no other header field is changed. -/
theorem init_heap_builds (H fuel : Nat) (hf : HEAP_SIZE < fuel) (st : State)
    (hst : st.free_list = none) :
    ∃ st', init_heap H fuel st = some st' ∧ init_post st st' (carve H fuel 0) [] := by
  obtain ⟨st', e, hp⟩ := init_heap_loop_spec H fuel 0 st [] (by omega)
    (by rw [hst]; rfl) (by simp)
  exact ⟨st', e, hp⟩

theorem chain_head {next : Int → Ptr} :
    ∀ (l : List Int) (p : Ptr), chain next p l → p = l.head?
  | [], _, h => h
  | _ :: _, _, h => h.1

/-- Bounds, disjointness and the unused tail, read off the free list of a state whose
free list holds the blocks `blocks` in reverse order with their size fields. -/
theorem built_blocks (H : Nat) (st' : State) (blocks : List (Nat × Nat))
    (hch : free_blocks st' ((blocks.map (fun c => (c.1 : Int))).reverse))
    (hsz : ∀ c ∈ blocks, st'.size c.1 = c.2)
    (hb : ∀ c ∈ blocks, c.1 + H + c.2 ≤ HEAP_SIZE)
    (hs : blocks.Pairwise (fun a b => a.1 + H + a.2 ≤ b.1 ∧ a.1 < b.1))
    (ht : HEAP_SIZE < ((blocks.getLast?.map (fun c => c.1 + H + c.2)).getD 0) + H + 15) :
    (∀ b, on_list st'.next st'.free_list b →
      0 ≤ b ∧ b + H + st'.size b ≤ HEAP_SIZE) ∧
    (∀ b b', on_list st'.next st'.free_list b → on_list st'.next st'.free_list b' →
      b ≠ b' → b + H + st'.size b ≤ b' ∨ b' + H + st'.size b' ≤ b) ∧
    (st'.free_list = none → HEAP_SIZE < H + 15) ∧
    (∀ last, st'.free_list = some last →
      (∀ b, on_list st'.next st'.free_list b → b ≤ last) ∧
      0 ≤ (HEAP_SIZE : Int) - (last + H + st'.size last) ∧
      (HEAP_SIZE : Int) - (last + H + st'.size last) < H + 15) := by
  have hmem : ∀ b, on_list st'.next st'.free_list b → ∃ c ∈ blocks, (c.1 : Int) = b := by
    intro b hb'
    have := on_list_of_chain hb' _ hch
    obtain ⟨c, hc, hcb⟩ := List.mem_map.1 (List.mem_reverse.1 this)
    exact ⟨c, hc, hcb⟩
  have hhead := chain_head _ _ hch
  refine ⟨?_, ?_, ?_, ?_⟩
  · intro b hb'
    obtain ⟨c, hc, rfl⟩ := hmem b hb'
    have h1 := hb c hc
    rw [hsz c hc]
    constructor
    · omega
    · omega
  · intro b b' h1 h2 hne
    obtain ⟨c, hc, rfl⟩ := hmem b h1
    obtain ⟨c', hc', rfl⟩ := hmem b' h2
    have hcc : c ≠ c' := fun e => hne (by rw [e])
    have hsym : Symmetric (fun a b : Nat × Nat =>
        a.1 + H + a.2 ≤ b.1 ∨ b.1 + H + b.2 ≤ a.1) := fun a b h => h.symm
    have := (hs.imp (fun h => Or.inl h.1)).forall hsym hc hc' hcc
    rw [hsz c hc, hsz c' hc']
    rcases this with h | h
    · left; omega
    · right; omega
  · intro hnone
    cases hl : blocks.getLast? with
    | none =>
      rw [hl] at ht
      simpa using ht
    | some c =>
      obtain ⟨l', hl'⟩ := List.getLast?_eq_some_iff.1 hl
      rw [hl'] at hhead
      simp [hnone] at hhead
  · intro last hlast
    cases hl : blocks.getLast? with
    | none =>
      rw [List.getLast?_eq_none_iff] at hl
      rw [hl] at hhead
      simp [hlast] at hhead
    | some c =>
      obtain ⟨l', hl'⟩ := List.getLast?_eq_some_iff.1 hl
      have hc : c ∈ blocks := by rw [hl']; simp
      have hlc : last = (c.1 : Int) := by
        rw [hl'] at hhead
        simpa [hlast] using hhead
      rw [hl] at ht
      simp only [Option.map_some', Option.getD_some] at ht
      have h1 := hb c hc
      refine ⟨?_, ?_, ?_⟩
      · intro b hb'
        obtain ⟨d, hd, rfl⟩ := hmem b hb'
        rw [hlc]
        rw [hl'] at hd hs
        rcases List.mem_append.1 hd with h | h
        · have := (List.pairwise_append.1 hs).2.2 d h c (by simp)
          have := this.2
          omega
        · have : d = c := by simpa using h
          rw [this]
      · rw [hlc, hsz c hc]
        omega
      · rw [hlc, hsz c hc]
        omega

/-- C5. Run on an empty free list with enough fuel, `init_heap` returns and leaves on the
free list exactly the blocks of the reference partition, pushed in increasing address
order (so that the list holds them last first), with their size fields written; it
changes no other header field, not the flag and no arena byte.  The reference partition
is `HEAP_SIZE / (H + 180)` blocks with size field 180 from offset 0, then
`(HEAP_SIZE % (H + 180)) / (H + 15)` blocks with size field 15, each block starting where
the previous one ends.  For `H = 16`: 20 blocks at `196 * k`, then 5 blocks at
`3920 + 31 * j`, 25 in all. -/
theorem init_heap_partition (H fuel : Nat) (hf : HEAP_SIZE < fuel) :
    (∀ st : State, st.free_list = none →
      ∃ st', init_heap H fuel st = some st' ∧
        free_blocks st' ((partition_ref H).map (fun c => (c.1 : Int))).reverse ∧
        (∀ c ∈ partition_ref H, st'.size c.1 = c.2) ∧
        (∀ x : Int, (∀ c ∈ partition_ref H, (c.1 : Int) ≠ x) →
          st'.size x = st.size x ∧ st'.next x = st.next x) ∧
        st'.initialized = st.initialized ∧ st'.heap = st.heap) ∧
    carve H fuel 0 = partition_ref H ∧
    (partition_ref H).Chain' (fun a b => b.1 = a.1 + H + a.2) ∧
    (∀ c ∈ (partition_ref H).head?, c.1 = 0) ∧
    partition_ref 16 = (List.range 20).map (fun k => (196 * k, 180)) ++
      (List.range 5).map (fun j => (3920 + 31 * j, 15)) ∧
    (partition_ref 16).length = 25 := by
  have hcv := carve_eq_partition_ref H fuel hf
  refine ⟨?_, hcv, by rw [← hcv]; exact carve_contiguous H fuel 0,
    by rw [← hcv]; exact carve_head H fuel 0, by decide, by decide⟩
  intro st hst
  obtain ⟨st', e, hp⟩ := init_heap_builds H fuel hf st hst
  rw [hcv] at hp
  obtain ⟨h1, h2, h3, h4, h5⟩ := hp
  exact ⟨st', e, by simpa [free_blocks] using h1, h2, h3, h4, h5⟩

/-- C5 at a 16-byte header with fuel `HEAP_SIZE + 1`. -/
theorem init_heap_partition_witness :
    (∀ st : State, st.free_list = none →
      ∃ st', init_heap 16 (HEAP_SIZE + 1) st = some st' ∧
        free_blocks st' ((partition_ref 16).map (fun c => (c.1 : Int))).reverse ∧
        (∀ c ∈ partition_ref 16, st'.size c.1 = c.2) ∧
        (∀ x : Int, (∀ c ∈ partition_ref 16, (c.1 : Int) ≠ x) →
          st'.size x = st.size x ∧ st'.next x = st.next x) ∧
        st'.initialized = st.initialized ∧ st'.heap = st.heap) ∧
    carve 16 (HEAP_SIZE + 1) 0 = partition_ref 16 ∧
    (partition_ref 16).Chain' (fun a b => b.1 = a.1 + 16 + a.2) ∧
    (∀ c ∈ (partition_ref 16).head?, c.1 = 0) ∧
    partition_ref 16 = (List.range 20).map (fun k => (196 * k, 180)) ++
      (List.range 5).map (fun j => (3920 + 31 * j, 15)) ∧
    (partition_ref 16).length = 25 :=
  init_heap_partition 16 (HEAP_SIZE + 1) (by decide)

/-- C10. Run on an empty free list with enough fuel, `init_heap` returns and leaves
on the free list exactly the blocks it carved, with their size fields.  Every block it
leaves there ends inside the arena; the byte ranges `[b, b + H + size)` of any two of
them are disjoint; and the room after the last carved block (the head of the list, which
has the highest offset) is less than `H + 15` bytes, 21 bytes when `H = 16`, where that
block is the one at 4044 with size 15.  The same holds of the blocks as the loop carves
them.  Hence every reference returned by `my_malloc n`, in any state reached by calls of
`my_malloc` and releases of payload references of carved blocks (correct use is such a
use), has its `n` payload bytes inside the arena, after a header inside the arena. -/
theorem carved_blocks_in_bounds (H fuel : Nat) (hf : HEAP_SIZE < fuel) :
    (∀ st : State, st.free_list = none →
      ∃ st', init_heap H fuel st = some st' ∧
        free_blocks st' ((carve H fuel 0).map (fun c => (c.1 : Int))).reverse ∧
        (∀ c ∈ carve H fuel 0, st'.size c.1 = c.2) ∧
        (∀ b, on_list st'.next st'.free_list b →
          0 ≤ b ∧ b + H + st'.size b ≤ HEAP_SIZE) ∧
        (∀ b b', on_list st'.next st'.free_list b → on_list st'.next st'.free_list b' →
          b ≠ b' → b + H + st'.size b ≤ b' ∨ b' + H + st'.size b' ≤ b) ∧
        (st'.free_list = none → HEAP_SIZE < H + 15) ∧
        (∀ last, st'.free_list = some last →
          (∀ b, on_list st'.next st'.free_list b → b ≤ last) ∧
          0 ≤ (HEAP_SIZE : Int) - (last + H + st'.size last) ∧
          (HEAP_SIZE : Int) - (last + H + st'.size last) < H + 15)) ∧
    (∀ st : State, st.free_list = none →
      ∃ st', init_heap 16 fuel st = some st' ∧ st'.free_list = some 4044 ∧
        st'.size 4044 = 15 ∧ (HEAP_SIZE : Int) - (4044 + 16 + 15) = 21) ∧
    (∀ c ∈ carve H fuel 0, c.1 + H + c.2 ≤ HEAP_SIZE) ∧
    (carve H fuel 0).Pairwise (fun a b => a.1 + H + a.2 ≤ b.1) ∧
    HEAP_SIZE - (((carve H fuel 0).getLast?.map (fun c => c.1 + H + c.2)).getD 0) < H + 15 ∧
    HEAP_SIZE - (((carve 16 fuel 0).getLast?.map (fun c => c.1 + 16 + c.2)).getD 0) = 21 ∧
    (∀ (fuel' : Nat) (st st' : State) (n : Nat) (p : Int),
      Run H st → my_malloc H fuel' st n = some (some p, st') →
      (H : Int) ≤ p ∧ p + n ≤ HEAP_SIZE) ∧
    (∀ (st : State) (out : List (Int × Nat)), Reach H st out → Run H st) := by
  refine ⟨?_, ?_, fun c hc => (carve_bound H fuel 0 c hc).2,
    (carve_sorted H fuel 0).imp (fun h => h.1), ?_, ?_, ?_, fun _ _ hr => reach_run hr⟩
  · intro st hst
    obtain ⟨st', e, hp⟩ := init_heap_builds H fuel hf st hst
    have hch : free_blocks st' ((carve H fuel 0).map (fun c => (c.1 : Int))).reverse := by
      simpa [free_blocks] using hp.1
    obtain ⟨k1, k2, k3, k4⟩ := built_blocks H st' (carve H fuel 0) hch hp.2.1
      (fun c hc => (carve_bound H fuel 0 c hc).2) (carve_sorted H fuel 0)
      (carve_tail H fuel 0 (by omega))
    exact ⟨st', e, hch, hp.2.1, k1, k2, k3, k4⟩
  · intro st hst
    obtain ⟨st', e, hp⟩ := init_heap_builds 16 fuel hf st hst
    rw [carve_fuel 16 fuel (HEAP_SIZE + 1) 0 (by omega) (by omega)] at hp
    have hch : chain st'.next st'.free_list
        ((carve 16 (HEAP_SIZE + 1) 0).map (fun c => (c.1 : Int))).reverse := by
      simpa using hp.1
    have hhead := chain_head _ _ hch
    have h4044 : (((carve 16 (HEAP_SIZE + 1) 0).map (fun c => (c.1 : Int))).reverse).head?
        = some 4044 := by decide
    have hsz := hp.2.1 (4044, 15) (by decide)
    exact ⟨st', e, by rw [hhead, h4044], hsz, by decide⟩
  · have := carve_tail H fuel 0 (by omega)
    omega
  · rw [carve_fuel 16 fuel (HEAP_SIZE + 1) 0 (by omega) (by omega)]
    decide
  · intro fuel' st st' n p hr e
    obtain ⟨hc, hsz⟩ := run_closed hr
    obtain ⟨_, _, hsizes, hret⟩ := my_malloc_closed H fuel' n st st' (some p) hc hsz e
    obtain ⟨hmem, hpn⟩ := hret p rfl
    obtain ⟨c, hc, hcp⟩ := List.mem_map.1 hmem
    have hcs := hsizes c hc
    have hb := (carve_bound H _ _ c hc).2
    rw [hcp, hpn] at hcs
    simp only [HEAP_SIZE] at hb ⊢
    constructor
    · omega
    · push_cast
      omega

/-- C10 at a 16-byte header with fuel `HEAP_SIZE + 1`. -/
theorem carved_blocks_in_bounds_witness :
    (∀ st : State, st.free_list = none →
      ∃ st', init_heap 16 (HEAP_SIZE + 1) st = some st' ∧
        free_blocks st' ((carve 16 (HEAP_SIZE + 1) 0).map (fun c => (c.1 : Int))).reverse ∧
        (∀ c ∈ carve 16 (HEAP_SIZE + 1) 0, st'.size c.1 = c.2) ∧
        (∀ b, on_list st'.next st'.free_list b →
          0 ≤ b ∧ b + (16 : Nat) + st'.size b ≤ HEAP_SIZE) ∧
        (∀ b b', on_list st'.next st'.free_list b → on_list st'.next st'.free_list b' →
          b ≠ b' → b + (16 : Nat) + st'.size b ≤ b' ∨ b' + (16 : Nat) + st'.size b' ≤ b) ∧
        (st'.free_list = none → HEAP_SIZE < 16 + 15) ∧
        (∀ last, st'.free_list = some last →
          (∀ b, on_list st'.next st'.free_list b → b ≤ last) ∧
          0 ≤ (HEAP_SIZE : Int) - (last + (16 : Nat) + st'.size last) ∧
          (HEAP_SIZE : Int) - (last + (16 : Nat) + st'.size last) < (16 : Nat) + 15)) ∧
    (∀ st : State, st.free_list = none →
      ∃ st', init_heap 16 (HEAP_SIZE + 1) st = some st' ∧ st'.free_list = some 4044 ∧
        st'.size 4044 = 15 ∧ (HEAP_SIZE : Int) - (4044 + 16 + 15) = 21) ∧
    (∀ c ∈ carve 16 (HEAP_SIZE + 1) 0, c.1 + 16 + c.2 ≤ HEAP_SIZE) ∧
    (carve 16 (HEAP_SIZE + 1) 0).Pairwise (fun a b => a.1 + 16 + a.2 ≤ b.1) ∧
    HEAP_SIZE - (((carve 16 (HEAP_SIZE + 1) 0).getLast?.map
      (fun c => c.1 + 16 + c.2)).getD 0) < 16 + 15 ∧
    HEAP_SIZE - (((carve 16 (HEAP_SIZE + 1) 0).getLast?.map
      (fun c => c.1 + 16 + c.2)).getD 0) = 21 ∧
    (∀ (fuel' : Nat) (st st' : State) (n : Nat) (p : Int),
      Run 16 st → my_malloc 16 fuel' st n = some (some p, st') →
      ((16 : Nat) : Int) ≤ p ∧ p + n ≤ HEAP_SIZE) ∧
    (∀ (st : State) (out : List (Int × Nat)), Reach 16 st out → Run 16 st) :=
  carved_blocks_in_bounds 16 (HEAP_SIZE + 1) (by decide)

end Alocator

namespace Eeprom

/-! ## What the driver puts on the bus -/

theorem digitalWrite_bus (w : World) (pin value : Nat) :
    (digitalWrite w pin value).bus = w.bus := rfl

theorem digitalWrite_input (w : World) (pin value : Nat) :
    (digitalWrite w pin value).input = w.input := rfl

theorem transfer_loop_bus :
    ∀ (k : Nat) (w : World) (data received : Nat),
      (transfer_loop k w data received).2.bus = w.bus
  | 0, _, _, _ => rfl
  | k + 1, w, data, received => by
    simp only [transfer_loop]
    rw [transfer_loop_bus k]
    rfl

theorem transfer_loop_input :
    ∀ (k : Nat) (w : World) (data received : Nat),
      (transfer_loop k w data received).2.input = w.input
  | 0, _, _, _ => rfl
  | k + 1, w, data, received => by
    simp only [transfer_loop]
    rw [transfer_loop_input k]
    rfl

/-- The byte received is an eight-bit value. -/
theorem transfer_loop_lt :
    ∀ (k : Nat) (w : World) (data received : Nat), received < 256 →
      (transfer_loop k w data received).1 < 256
  | 0, _, _, _, h => h
  | k + 1, w, data, received, h => by
    simp only [transfer_loop]
    refine transfer_loop_lt k _ _ _ ?_
    split_ifs <;> first | exact Nat.mod_lt _ (by decide) | exact h

/-- When every read of the line returns 0, as with the stand-in of the source, the byte
received is 0. -/
theorem transfer_loop_zero :
    ∀ (k : Nat) (w : World) (data : Nat), (∀ j, w.input j = 0) →
      (transfer_loop k w data 0).1 = 0
  | 0, _, _, _ => rfl
  | k + 1, w, data, h => by
    simp only [transfer_loop, digitalRead, digitalWrite, h, ne_eq, not_true_eq_false,
      if_false]
    exact transfer_loop_zero k _ data h

theorem transfer_bus (w : World) (data : Nat) :
    (transfer w data).2.bus = w.bus ++ [Event.xfer (data % 256)] := by
  simp [transfer, transfer_loop_bus]

theorem transfer_input (w : World) (data : Nat) : (transfer w data).2.input = w.input := by
  simp [transfer, transfer_loop_input]

theorem transfer_lt (w : World) (data : Nat) : (transfer w data).1 < 256 :=
  transfer_loop_lt 8 _ _ 0 (by decide)

theorem transfer_zero (w : World) (data : Nat) (h : ∀ j, w.input j = 0) :
    (transfer w data).1 = 0 :=
  transfer_loop_zero 8 _ _ h

theorem csLow_bus (w : World) : (csLow w).bus = w.bus ++ [Event.cs_low] := rfl

theorem csHigh_bus (w : World) : (csHigh w).bus = w.bus ++ [Event.cs_high] := rfl

theorem csLow_input (w : World) : (csLow w).input = w.input := rfl

theorem csHigh_input (w : World) : (csHigh w).input = w.input := rfl

/-- The command byte with address bit 8 in bit 3 fits in eight bits. -/
theorem cmd_lt (c a : Nat) (hc : c < 8) : c ||| (((a >>> 8) &&& 1) <<< 3) < 256 := by
  have hx : (a >>> 8) &&& 1 < 2 := by
    rw [Nat.and_one_is_mod]; exact Nat.mod_lt _ (by decide)
  have h1 : ((a >>> 8) &&& 1) <<< 3 < 2 ^ 8 := by
    rw [Nat.shiftLeft_eq]; omega
  exact Nat.or_lt_two_pow (by omega) h1

theorem and_ff (a : Nat) : a &&& 0xFF = a % 256 :=
  Nat.and_pow_two_sub_one_eq_mod a 8

theorem readByte_bus (w : World) (a : Nat) (ha : a < 65536) :
    (readByte w a).2.bus = w.bus ++ [Event.cs_low,
      Event.xfer (CMD_READ ||| (((a >>> 8) &&& 1) <<< 3)), Event.xfer (a &&& 0xFF),
      Event.xfer 0x00, Event.cs_high] := by
  have h1 : a % 65536 = a := Nat.mod_eq_of_lt ha
  have h2 : (CMD_READ ||| (((a >>> 8) &&& 1) <<< 3)) % 256
      = CMD_READ ||| (((a >>> 8) &&& 1) <<< 3) :=
    Nat.mod_eq_of_lt (cmd_lt CMD_READ a (by decide))
  have h3 : (a &&& 0xFF) % 256 = a &&& 0xFF := by
    rw [and_ff]; exact Nat.mod_mod _ _
  simp only [readByte, csHigh_bus, transfer_bus, csLow_bus, h1, h2, h3, Nat.mod_mod,
    List.append_assoc, List.cons_append, List.nil_append, Nat.zero_mod]

theorem readByte_input (w : World) (a : Nat) : (readByte w a).2.input = w.input := by
  unfold readByte
  rw [csHigh_input, transfer_input, transfer_input, transfer_input, csLow_input]

theorem readByte_lt (w : World) (a : Nat) : (readByte w a).1 < 256 := by
  simp only [readByte]
  exact transfer_lt _ _

theorem isBusy_bus (w : World) : (isBusy w).2.bus = w.bus ++ poll := by
  simp only [isBusy, csHigh_bus, transfer_bus, csLow_bus, poll, List.append_assoc,
    List.cons_append, List.nil_append]
  rfl

theorem isBusy_input (w : World) : (isBusy w).2.input = w.input := by
  unfold isBusy
  rw [csHigh_input, transfer_input, transfer_input, csLow_input]

/-- With the stand-in of the source the chip is never busy. -/
theorem isBusy_zero (w : World) (h : ∀ j, w.input j = 0) : (isBusy w).1 = false := by
  have h1 : ∀ j, (transfer (csLow w) CMD_RDSR).2.input j = 0 := by
    intro j; rw [transfer_input, csLow_input]; exact h j
  simp [isBusy, transfer_zero _ _ h1]

/-- When the wait loop exits, it has polled the status register at least once. -/
theorem busy_wait_bus :
    ∀ (fuel : Nat) (w w' : World), busy_wait fuel w = some w' →
      ∃ k, w'.bus = w.bus ++ polls (k + 1)
  | 0, _, _, h => by simp [busy_wait] at h
  | fuel + 1, w, w', h => by
    simp only [busy_wait] at h
    split_ifs at h with hb
    · obtain ⟨k, hk⟩ := busy_wait_bus fuel _ w' h
      refine ⟨k + 1, ?_⟩
      rw [hk]
      have : (delay (isBusy w).2 1).bus = w.bus ++ poll := isBusy_bus w
      rw [this]
      simp [polls, List.append_assoc]
    · simp only [Option.some.injEq] at h
      refine ⟨0, ?_⟩
      rw [← h, isBusy_bus]
      simp [polls]

theorem writeByte_bus (fuel : Nat) (w w' : World) (a v : Nat) (ha : a < 65536)
    (hv : v < 256) (h : writeByte fuel w a v = some w') :
    ∃ k, w'.bus = w.bus ++ [Event.cs_low, Event.xfer CMD_WREN, Event.cs_high] ++
      [Event.cs_low, Event.xfer (CMD_WRITE ||| (((a >>> 8) &&& 1) <<< 3)),
        Event.xfer (a &&& 0xFF), Event.xfer v, Event.cs_high] ++ polls (k + 1) := by
  have h1 : a % 65536 = a := Nat.mod_eq_of_lt ha
  have h2 : (CMD_WRITE ||| (((a >>> 8) &&& 1) <<< 3)) % 256
      = CMD_WRITE ||| (((a >>> 8) &&& 1) <<< 3) :=
    Nat.mod_eq_of_lt (cmd_lt CMD_WRITE a (by decide))
  have h3 : (a &&& 0xFF) % 256 = a &&& 0xFF := by
    rw [and_ff]; exact Nat.mod_mod _ _
  have h4 : v % 256 = v := Nat.mod_eq_of_lt hv
  have h5 : CMD_WREN % 256 = CMD_WREN := by decide
  simp only [writeByte] at h
  obtain ⟨k, hk⟩ := busy_wait_bus fuel _ w' h
  refine ⟨k, ?_⟩
  rw [hk]
  simp only [enableWrite, csHigh_bus, transfer_bus, csLow_bus, h1, h2, h3, h4, h5,
    Nat.mod_mod, List.append_assoc, List.cons_append, List.nil_append]

/-- Two addresses give the same command byte and address byte exactly when they agree
modulo 512. -/
theorem cmd_pair_iff (c : Nat) (hc : c = 2 ∨ c = 3) (a a' : Nat) :
    (c ||| (((a >>> 8) &&& 1) <<< 3) = c ||| (((a' >>> 8) &&& 1) <<< 3) ∧
      a &&& 0xFF = a' &&& 0xFF) ↔ a % 512 = a' % 512 := by
  have hor : ∀ y, y < 2 → c ||| (y <<< 3) = c + 8 * y := by
    intro y hy
    have hy' : y = 0 ∨ y = 1 := by omega
    rcases hc with rfl | rfl <;> rcases hy' with rfl | rfl <;> decide
  have hx : ∀ b : Nat, (b >>> 8) &&& 1 = b / 256 % 2 := by
    intro b
    rw [Nat.and_one_is_mod, Nat.shiftRight_eq_div_pow]
  rw [hx a, hx a', hor _ (Nat.mod_lt _ (by decide)), hor _ (Nat.mod_lt _ (by decide)),
    and_ff, and_ff]
  omega

theorem enableWrite_input (w : World) : (enableWrite w).input = w.input := by
  unfold enableWrite
  rw [csHigh_input, transfer_input, csLow_input]

/-- With the stand-in of the source for `digitalRead`, `writeByte` returns after one poll
of the status register. -/
theorem writeByte_returns (w : World) (a v : Nat) (h : ∀ j, w.input j = 0) :
    ∃ w', writeByte 1 w a v = some w' := by
  simp only [writeByte, busy_wait]
  rw [isBusy_zero]
  · exact ⟨_, rfl⟩
  · intro j
    rw [csHigh_input, transfer_input, transfer_input, transfer_input, csLow_input,
      enableWrite_input]
    exact h j

/-- C16. For every 16-bit address `a`: `readByte a` puts on the bus, between the
chip-select edges, exactly the bytes `0x03 | (((a >> 8) & 1) << 3)`, `a & 0xFF`, `0x00`
in that order; `writeByte a v`, when it returns, has put the write-enable frame, then the
data frame `0x02 | (((a >> 8) & 1) << 3)`, `a & 0xFF`, `v`, then only polls of the status
register (and with the `digitalRead` stand-in of the source it returns after one poll).
Two addresses give the same (command byte, address byte) pair exactly when they are
congruent modulo 512, so the pair is injective on `0..511`. -/
theorem address_framing (a : Nat) (ha : a < 65536) :
    (∀ w : World, (readByte w a).2.bus = w.bus ++ [Event.cs_low,
      Event.xfer (0x03 ||| (((a >>> 8) &&& 1) <<< 3)), Event.xfer (a &&& 0xFF),
      Event.xfer 0x00, Event.cs_high]) ∧
    (∀ (fuel : Nat) (w w' : World) (v : Nat), v < 256 → writeByte fuel w a v = some w' →
      ∃ k, w'.bus = w.bus ++ [Event.cs_low, Event.xfer 0x06, Event.cs_high] ++
        [Event.cs_low, Event.xfer (0x02 ||| (((a >>> 8) &&& 1) <<< 3)),
          Event.xfer (a &&& 0xFF), Event.xfer v, Event.cs_high] ++ polls (k + 1)) ∧
    (∀ (w : World) (v : Nat), (∀ j, w.input j = 0) → ∃ w', writeByte 1 w a v = some w') ∧
    (∀ a' : Nat, a' < 65536 →
      ((0x03 ||| (((a >>> 8) &&& 1) <<< 3) = 0x03 ||| (((a' >>> 8) &&& 1) <<< 3) ∧
        a &&& 0xFF = a' &&& 0xFF) ↔ a % 512 = a' % 512)) ∧
    (∀ a' : Nat, a' < 65536 →
      ((0x02 ||| (((a >>> 8) &&& 1) <<< 3) = 0x02 ||| (((a' >>> 8) &&& 1) <<< 3) ∧
        a &&& 0xFF = a' &&& 0xFF) ↔ a % 512 = a' % 512)) ∧
    (∀ a' : Nat, a < 512 → a' < 512 →
      0x03 ||| (((a >>> 8) &&& 1) <<< 3) = 0x03 ||| (((a' >>> 8) &&& 1) <<< 3) →
      a &&& 0xFF = a' &&& 0xFF → a = a') := by
  refine ⟨fun w => readByte_bus w a ha,
    fun fuel w w' v hv h => writeByte_bus fuel w w' a v ha hv h,
    fun w v h => writeByte_returns w a v h,
    fun a' _ => cmd_pair_iff 3 (Or.inr rfl) a a',
    fun a' _ => cmd_pair_iff 2 (Or.inl rfl) a a', ?_⟩
  intro a' h1 h2 e1 e2
  have := (cmd_pair_iff 3 (Or.inr rfl) a a').1 ⟨e1, e2⟩
  omega

/-- C16 at address 0x1A5. -/
theorem address_framing_witness :
    (∀ w : World, (readByte w 0x1A5).2.bus = w.bus ++ [Event.cs_low,
      Event.xfer (0x03 ||| (((0x1A5 >>> 8) &&& 1) <<< 3)), Event.xfer (0x1A5 &&& 0xFF),
      Event.xfer 0x00, Event.cs_high]) ∧
    (∀ (fuel : Nat) (w w' : World) (v : Nat), v < 256 →
      writeByte fuel w 0x1A5 v = some w' →
      ∃ k, w'.bus = w.bus ++ [Event.cs_low, Event.xfer 0x06, Event.cs_high] ++
        [Event.cs_low, Event.xfer (0x02 ||| (((0x1A5 >>> 8) &&& 1) <<< 3)),
          Event.xfer (0x1A5 &&& 0xFF), Event.xfer v, Event.cs_high] ++ polls (k + 1)) ∧
    (∀ (w : World) (v : Nat), (∀ j, w.input j = 0) →
      ∃ w', writeByte 1 w 0x1A5 v = some w') ∧
    (∀ a' : Nat, a' < 65536 →
      ((0x03 ||| (((0x1A5 >>> 8) &&& 1) <<< 3) = 0x03 ||| (((a' >>> 8) &&& 1) <<< 3) ∧
        0x1A5 &&& 0xFF = a' &&& 0xFF) ↔ 0x1A5 % 512 = a' % 512)) ∧
    (∀ a' : Nat, a' < 65536 →
      ((0x02 ||| (((0x1A5 >>> 8) &&& 1) <<< 3) = 0x02 ||| (((a' >>> 8) &&& 1) <<< 3) ∧
        0x1A5 &&& 0xFF = a' &&& 0xFF) ↔ 0x1A5 % 512 = a' % 512)) ∧
    (∀ a' : Nat, 0x1A5 < 512 → a' < 512 →
      0x03 ||| (((0x1A5 >>> 8) &&& 1) <<< 3) = 0x03 ||| (((a' >>> 8) &&& 1) <<< 3) →
      0x1A5 &&& 0xFF = a' &&& 0xFF → 0x1A5 = a') :=
  address_framing 0x1A5 (by decide)

/-! ## Read-modify-write of one bit -/

/-- The byte computed by `writeBit` fits in eight bits, has bit `bitPos` equal to `value`
and its other bits equal to those of `b`. -/
theorem new_byte_spec (W b bitPos : Nat) (value : Bool) (hW : 8 ≤ W) (hb : b < 256)
    (hp : bitPos ≤ 7) :
    new_byte W b bitPos value < 256 ∧
    ∀ i, (new_byte W b bitPos value).testBit i
      = if i = bitPos then value else b.testBit i := by
  have hhigh : ∀ i, 8 ≤ i → b.testBit i = false := by
    intro i hi
    refine Nat.testBit_lt_two_pow (Nat.lt_of_lt_of_le hb ?_)
    calc 256 = 2 ^ 8 := by norm_num
      _ ≤ 2 ^ i := Nat.pow_le_pow_right (by decide) hi
  have h256 : (256 : Nat) = 2 ^ 8 := by norm_num
  constructor
  · unfold new_byte
    split_ifs <;> exact Nat.mod_lt _ (by decide)
  · intro i
    cases value with
    | true =>
      simp only [new_byte, if_true, h256, Nat.testBit_mod_two_pow, Nat.testBit_or,
        Nat.one_shiftLeft, Nat.testBit_two_pow]
      by_cases hi : i = bitPos
      · subst hi
        have : i < 8 := by omega
        simp [this]
      · have hne : ¬ bitPos = i := fun e => hi e.symm
        by_cases h8 : i < 8
        · simp [hi, hne, h8]
        · simp [hi, hne, h8, hhigh i (by omega)]
    | false =>
      have hlt : 2 ^ bitPos < 2 ^ W :=
        Nat.pow_lt_pow_right (by decide) (by omega)
      have hsub : 2 ^ W - 1 - 2 ^ bitPos = 2 ^ W - (2 ^ bitPos + 1) := by omega
      simp only [new_byte, Bool.false_eq_true, if_false, h256, Nat.testBit_mod_two_pow,
        Nat.testBit_and, Nat.one_shiftLeft, hsub, Nat.testBit_two_pow_sub_succ hlt,
        Nat.testBit_two_pow]
      by_cases hi : i = bitPos
      · subst hi
        simp
      · have hne : ¬ bitPos = i := fun e => hi e.symm
        by_cases h8 : i < 8
        · have hiW : i < W := by omega
          simp [hi, hne, h8, hiW]
        · simp [hi, hne, h8, hhigh i (by omega)]

/-- C17. For every address, every `bitPos` in `0..7` and every `value`: `writeBit` reads
the byte `b` at the address and then calls `writeByte` with a byte that fits in eight
bits, has bit `bitPos` equal to `value` and its other seven bits equal to those of `b`
(for every width `W >= 8` of `int`); this holds of the computed byte for every byte `b`,
and the `int` results of `b | (1 << bitPos)` and `b & ~(1 << bitPos)` are already below
256, so the store into the `uint8_t` loses nothing.
For `bitPos > 7`, `writeBit` returns at once, leaving the record of pin writes, the count
of pin reads and the bus record as they were. -/
theorem writeBit_read_modify_write (W fuel : Nat) (w : World) (a bitPos : Nat)
    (value : Bool) (hW : 8 ≤ W) (hp : bitPos < 256) :
    (bitPos ≤ 7 →
      writeBit W fuel w a bitPos value
        = writeByte fuel (readByte w a).2 a (new_byte W (readByte w a).1 bitPos value) ∧
      new_byte W (readByte w a).1 bitPos value < 256 ∧
      (∀ i, (new_byte W (readByte w a).1 bitPos value).testBit i
        = if i = bitPos then value else (readByte w a).1.testBit i) ∧
      (∀ b, b < 256 → new_byte W b bitPos value < 256 ∧
        (∀ i, (new_byte W b bitPos value).testBit i
          = if i = bitPos then value else b.testBit i) ∧
        b ||| (1 <<< bitPos) < 256 ∧ b &&& (2 ^ W - 1 - (1 <<< bitPos)) < 256)) ∧
    (7 < bitPos → writeBit W fuel w a bitPos value = some w) := by
  have hmod : bitPos % 256 = bitPos := Nat.mod_eq_of_lt hp
  constructor
  · intro h7
    have hnot : ¬ bitPos > 7 := by omega
    obtain ⟨h1, h2⟩ := new_byte_spec W (readByte w a).1 bitPos value hW (readByte_lt w a) h7
    refine ⟨?_, h1, h2, fun b hb => ?_⟩
    · simp only [writeBit, hmod, hnot, if_false]
    · obtain ⟨k1, k2⟩ := new_byte_spec W b bitPos value hW hb h7
      refine ⟨k1, k2, ?_, Nat.lt_of_le_of_lt Nat.and_le_left hb⟩
      have hb8 : b < 2 ^ 8 := by simpa using hb
      have hp8 : 1 <<< bitPos < 2 ^ 8 := by
        rw [Nat.one_shiftLeft]
        exact Nat.pow_lt_pow_right (by decide) (by omega)
      simpa using Nat.or_lt_two_pow hb8 hp8
  · intro h7
    simp only [writeBit, hmod, h7, if_true]

/-- C17 with 32-bit `int`, on a board whose line reads 1 at every read (so that the byte
read is 0xFF): clearing bit 3 at address 5, and a call with `bitPos = 8`. -/
theorem writeBit_read_modify_write_witness :
    ((3 : Nat) ≤ 7 →
      writeBit 32 1 (blank (fun _ => 1)) 5 3 false
        = writeByte 1 (readByte (blank (fun _ => 1)) 5).2 5
            (new_byte 32 (readByte (blank (fun _ => 1)) 5).1 3 false) ∧
      new_byte 32 (readByte (blank (fun _ => 1)) 5).1 3 false < 256 ∧
      (∀ i, (new_byte 32 (readByte (blank (fun _ => 1)) 5).1 3 false).testBit i
        = if i = 3 then false else (readByte (blank (fun _ => 1)) 5).1.testBit i) ∧
      (∀ b, b < 256 → new_byte 32 b 3 false < 256 ∧
        (∀ i, (new_byte 32 b 3 false).testBit i = if i = 3 then false else b.testBit i) ∧
        b ||| (1 <<< 3) < 256 ∧ b &&& (2 ^ 32 - 1 - (1 <<< 3)) < 256)) ∧
    (readByte (blank (fun _ => 1)) 5).1 = 0xFF ∧
    new_byte 32 0xFF 3 false = 0xF7 ∧
    writeBit 32 1 (blank (fun _ => 1)) 5 8 true = some (blank (fun _ => 1)) :=
  ⟨(writeBit_read_modify_write 32 1 (blank (fun _ => 1)) 5 3 false (by decide)
      (by decide)).1,
    by decide, by decide,
    (writeBit_read_modify_write 32 1 (blank (fun _ => 1)) 5 8 true (by decide)
      (by decide)).2 (by decide)⟩

end Eeprom
